import Mathlib

/-!
Verification development for the nuclearcraft-designer repository.

The definitions below are shallow embeddings of the Python sources:
  * `core/multi_sequence.py`  — n-dimensional container with int/tuple keys;
  * `core/placement_rule.py`  — placement rules and their CP-SAT lowering;
  * `core/constraints.py`     — layout constraints (direct check only);
  * `overhauled/turbine_rotor_blade.py` — rotor-blade efficiency scoring;
  * `optimizer.py`            — the lexicographic backtracking enumerator.

Python integers become `Nat`/`Int` (with `Int.fdiv` for Python's floor
division where operands can be negative), Python floats become `ℝ` (for the
efficiency formulas) or `ℚ` (for abstract scoring functions), Python lists
become `List`, and fallible operations return `Option`.
-/

namespace NCD

/-! ## MultiSequence (core/multi_sequence.py) -/

/-- The `__init__` invariant of `MultiSequence`: the flat buffer length is the
product of the dimensions (`assert math.prod(self.dims) == len(self.seq)`). -/
structure MultiSequence (E : Type) where
  seq : List E
  dims : List Nat

/-- Python `math.prod(self.dims[i:])`. -/
def dimsProd (dims : List Nat) (i : Nat) : Nat := (dims.drop i).prod

/-- `MultiSequence.int_to_tuple`: `(key % prod(dims[i:])) // prod(dims[i+1:])`
for `i in range(len(dims))`. -/
def int_to_tuple (dims : List Nat) (key : Nat) : List Nat :=
  (List.range dims.length).map
    (fun i => (key % dimsProd dims i) / dimsProd dims (i + 1))

/-- `MultiSequence.tuple_to_int`: `sum(key[i] * prod(dims[i+1:]))`. -/
def tuple_to_int (dims : List Nat) (key : List Nat) : Nat :=
  ((List.range dims.length).map
    (fun i => key.getD i 0 * dimsProd dims (i + 1))).sum

/-- `MultiSequence.__getitem__` with a tuple key: `self.seq[self.tuple_to_int(key)]`.
Python list indexing raises `IndexError` exactly when the (non-negative) flat
index is out of range; this is modelled by `Option`. -/
def getItem (ms : MultiSequence E) (key : List Nat) : Option E :=
  ms.seq[tuple_to_int ms.dims key]?

/-- The constructor's length assertion, as a proposition. -/
def MultiSequence.wf (ms : MultiSequence E) : Prop :=
  ms.dims.prod = ms.seq.length

/-! ## Placement rules (core/placement_rule.py) -/

/-- `LogicMode` from `core/placement_rule.py`. -/
inductive LogicMode where
  | AND
  | OR
deriving DecidableEq, Repr

/-- The placement-rule hierarchy: the base class `PlacementRule` (always
satisfied), `SimplePlacementRule(name, quantity, exact, axial)` and
`CompoundPlacementRule(rules, mode)`.  Python's `quantity: int` is `Int`. -/
inductive Rule where
  | base
  | simple (name : String) (quantity : Int) (exact : Bool) (axial : Bool)
  | compound (rules : List Rule) (mode : LogicMode)
deriving Repr

mutual

/-- Direct evaluation `rule(comp_names)` of a placement rule, from
`PlacementRule.__call__`, `SimplePlacementRule.__call__` and
`CompoundPlacementRule.__call__`. -/
def Rule.eval : Rule → List String → Bool
  | .base, _ => true
  | .simple name quantity exact axial, comp_names =>
      if comp_names.contains "incomplete" then true
      else
        let q : Int := comp_names.countP (· == name)
        let ax : Bool := (List.range (comp_names.length / 2)).any
          (fun i => comp_names.getD (i * 2) "" == comp_names.getD (i * 2 + 1) ""
            && comp_names.getD (i * 2 + 1) "" == name)
        if exact then
          if q != quantity then false
          else if axial && !ax then false else true
        else
          if q < quantity then false
          else if axial && !ax then false else true
  | .compound rules mode, comp_names =>
      match mode with
      | .AND => Rule.evalAll rules comp_names
      | .OR => Rule.evalAny rules comp_names

/-- The `LogicMode.AND` loop of `CompoundPlacementRule.__call__`: false as
soon as one rule fails. -/
def Rule.evalAll : List Rule → List String → Bool
  | [], _ => true
  | r :: rs, comp_names => r.eval comp_names && Rule.evalAll rs comp_names

/-- The `LogicMode.OR` loop of `CompoundPlacementRule.__call__`: true as soon
as one rule holds. -/
def Rule.evalAny : List Rule → List String → Bool
  | [], _ => false
  | r :: rs, comp_names => r.eval comp_names || Rule.evalAny rs comp_names

end

/-! ## Components

Modelled from the spec: `core/component.py` is imported by
`core/constraints.py` but is absent from `src/`.  Per spec §3 a Component has
an identity `name`, numeric `stats` and a `placement_rule`; only `name` and
`placement_rule` are read by the constraint code, so `stats` is omitted here. -/

/-- Modelled from the spec: a catalog component (`core/component.py` is not in
`src/`): `name` plus its `placement_rule`; the `stats` mapping is never read
by any of the claims' code paths. -/
structure Component where
  name : String
  placement_rule : Rule

/-! ## Constraints (core/constraints.py), direct-check interface -/

/-- Layouts manipulated by the constraints: a `MultiSequence` whose cells hold
`Component` or Python `None` (unassigned), i.e. `Option Component`. -/
abbrev Layout := MultiSequence (Option Component)

/-- Cell lookup as done by `sequence[coords]` inside the constraints: tuple
indexing flattens through `tuple_to_int` and out-of-range reads are modelled
as unassigned. -/
def cellAt (P : Layout) (coords : List Nat) : Option Component :=
  (getItem P coords).join

/-- `MaxQuantityConstraint.__call__`: count the non-`None` cells whose name is
the target and compare with the maximum (`max_quantity: int`). -/
def max_quantity_check (target_name : String) (max_quantity : Int) (P : Layout) : Bool :=
  let n : Int := P.seq.countP (fun c => match c with
    | some comp => comp.name == target_name
    | none => false)
  n ≤ max_quantity

/-- The mirror coordinate used by `SymmetryConstraint`: flip axis `d`. -/
def mirrorCoords (dims : List Nat) (coords : List Nat) (d : Nat) : List Nat :=
  (List.range dims.length).map
    (fun i => if i = d then dims.getD i 0 - coords.getD i 0 - 1 else coords.getD i 0)

/-- `SymmetryConstraint.__call__`: every assigned cell must carry the same
name as every assigned mirror cell, on each axis. -/
def symmetry_check (P : Layout) : Bool :=
  (List.range P.seq.length).all (fun i =>
    let coords := int_to_tuple P.dims i
    match cellAt P coords with
    | none => true
    | some comp =>
      (List.range P.dims.length).all (fun d =>
        match cellAt P (mirrorCoords P.dims coords d) with
        | none => true
        | some comp2 => comp.name == comp2.name))

/-- The neighbour-name tuple built by `PlacementRuleConstraint.__call__` for
the cell at `idx`: for each axis `d`, first the `+d` neighbour then the `-d`
neighbour; off-grid neighbours are `"wall"`, unassigned ones `"incomplete"`. -/
def neighborNames (P : Layout) (idx : List Nat) : List String :=
  (List.range P.dims.length).flatMap (fun d =>
    let dimd := P.dims.getD d 0
    let plus :=
      if idx.getD d 0 < dimd - 1 then
        let idxp := (List.range P.dims.length).map
          (fun i => if i = d then idx.getD i 0 + 1 else idx.getD i 0)
        match cellAt P idxp with
        | some comp => comp.name
        | none => "incomplete"
      else "wall"
    let minus :=
      if 0 < idx.getD d 0 then
        let idxn := (List.range P.dims.length).map
          (fun i => if i = d then idx.getD i 0 - 1 else idx.getD i 0)
        match cellAt P idxn with
        | some comp => comp.name
        | none => "incomplete"
      else "wall"
    [plus, minus])

/-- `PlacementRuleConstraint.__call__`: every assigned cell's own placement
rule must accept its neighbour-name tuple. -/
def placement_rule_check (P : Layout) : Bool :=
  (List.range P.seq.length).all (fun i =>
    let idx := int_to_tuple P.dims i
    match cellAt P idx with
    | none => true
    | some comp => comp.placement_rule.eval (neighborNames P idx))

/-- Whether cell `(y, x)` lies inside the centred shaft block of
`CenteredBearingsConstraint.__call__`.  Python's `//` on possibly negative
operands is floor division, hence `Int.fdiv`. -/
def inShaftBlock (side : Nat) (shaft_width : Int) (y x : Nat) : Bool :=
  if side % 2 = 1 then
    let mid : Int := (((side : Int)) - 1).fdiv 2
    let r : Int := (shaft_width - 1).fdiv 2
    mid - r ≤ (x : Int) && (x : Int) ≤ mid + r && mid - r ≤ (y : Int) && (y : Int) ≤ mid + r
  else
    let mid : Int := ((side : Int)).fdiv 2 - 1
    let rl : Int := shaft_width.fdiv 2 - 1
    let rr : Int := shaft_width.fdiv 2
    mid - rl ≤ (x : Int) && (x : Int) ≤ mid + rr && mid - rl ≤ (y : Int) && (y : Int) ≤ mid + rr

/-- `CenteredBearingsConstraint.__call__`: assigned cells inside the centred
block must be named `"bearing"`, assigned cells outside must not.  The parity
split and the `mid`/`r` bounds are taken verbatim from the source (which keys
both loops and the block off `sequence.dims[0]` and `sequence.dims[1]`). -/
def centered_bearings_check (shaft_width : Int) (P : Layout) : Bool :=
  (List.range (P.dims.getD 0 0)).all (fun y =>
    (List.range (P.dims.getD 1 0)).all (fun x =>
      match cellAt P [y, x] with
      | none => true
      | some comp =>
        if inShaftBlock (P.dims.getD 0 0) shaft_width y x then
          comp.name == "bearing"
        else
          !(comp.name == "bearing")))

/-- The constraint library of `core/constraints.py` as a sum type. -/
inductive Constraint where
  | maxQuantity (target_name : String) (max_quantity : Int)
  | symmetry
  | placementRule
  | centeredBearings (shaft_width : Int)

/-- Dispatch of `Constraint.__call__` over the four library constraints. -/
def Constraint.check : Constraint → Layout → Bool
  | .maxQuantity t q, P => max_quantity_check t q P
  | .symmetry, P => symmetry_check P
  | .placementRule, P => placement_rule_check P
  | .centeredBearings w, P => centered_bearings_check w P

/-- Extension of a partial layout: the dimensions are unchanged and every
previously assigned cell keeps its component; unassigned (`None`) cells may
receive arbitrary values. -/
def ExtendsLayout (P Q : Layout) : Prop :=
  P.dims = Q.dims ∧
    List.Forall₂ (fun a b => ∀ c : Component, a = some c → b = some c) P.seq Q.seq

/-! ## Rotor blades (overhauled/turbine_rotor_blade.py)

Python floats are embedded as real numbers; `x ** (1/2)` and
`x ** ((i + 0.5) / n)` become `Real.rpow`. -/

/-- `RotorBlade(name, efficiency, expansion)`. -/
structure RotorBlade where
  name : String
  efficiency : ℝ
  expansion : ℝ

noncomputable section

/-- `EfficiencyCalculator.expansion_levels`: the running product of the
expansion factors together with the mid-cell level
`total * blade.expansion ** (1/2)` recorded before each update. -/
def expansion_levels (seq : List RotorBlade) : ℝ × List ℝ :=
  seq.foldl
    (fun acc blade =>
      (acc.1 * blade.expansion, acc.2 ++ [acc.1 * blade.expansion ^ ((1 : ℝ) / 2)]))
    (1, [])

/-- `EfficiencyCalculator.efficiency`.  Python indexes `sequence[0]` before
looping, so the empty sequence raises `IndexError`, modelled as `none`. -/
def efficiency (seq : List RotorBlade) (opt_expansion : ℝ) : Option ℝ :=
  match seq with
  | [] => none
  | _ :: _ =>
    let levels := (expansion_levels seq).2
    let step := seq.enum.foldl
      (fun (acc : ℝ × ℕ) iv =>
        let i : ℕ := iv.1
        let blade : RotorBlade := iv.2
        if 0 < blade.efficiency then
          let opt_e := opt_expansion ^ (((i : ℝ) + 0.5) / (seq.length : ℝ))
          let exp_e := levels.getD i 0
          (acc.1 + blade.efficiency *
            (if 0 < opt_e ∧ 0 < exp_e then
              (if opt_e < exp_e then opt_e / exp_e else exp_e / opt_e)
            else 0),
            acc.2 + 1)
        else acc)
      (0, 0)
    some (if 0 < step.2 then step.1 / (step.2 : ℝ) else 0)

/-- The claim's expansion level at position `i`:
`L i = (∏ expansions before i) * sqrt (expansion i)`. -/
def claimLevel (seq : List RotorBlade) (i : Nat) : ℝ :=
  ((seq.take i).map (·.expansion)).prod * Real.sqrt ((seq.getD i ⟨"", 0, 0⟩).expansion)

/-- The claim's target expansion at position `i` of `n`:
`T i = opt_expansion ^ ((i + 0.5) / n)`. -/
def claimTarget (opt_expansion : ℝ) (n : Nat) (i : Nat) : ℝ :=
  opt_expansion ^ (((i : ℝ) + 0.5) / (n : ℝ))

/-- The claim's per-blade ratio `r i = min(T,L)/max(T,L)`, `0` if `T ≤ 0` or
`L ≤ 0`. -/
def claimRatio (seq : List RotorBlade) (opt_expansion : ℝ) (i : Nat) : ℝ :=
  let T := claimTarget opt_expansion seq.length i
  let L := claimLevel seq i
  if T ≤ 0 ∨ L ≤ 0 then 0 else min T L / max T L

/-- The claim's total efficiency: the mean over positive-efficiency positions
of `efficiency i * r i`, and `0` when there is no such position. -/
def claimEfficiency (seq : List RotorBlade) (opt_expansion : ℝ) : ℝ :=
  let picks := seq.enum.filter (fun iv => 0 < iv.2.efficiency)
  if picks.length = 0 then 0
  else (picks.map (fun iv => iv.2.efficiency * claimRatio seq opt_expansion iv.1)).sum
    / (picks.length : ℝ)

end

/-! ## CP-SAT model embedding (for `to_model` of core/placement_rule.py)

A CP-SAT model is embedded as a fresh-variable counter plus a list of
constraints, each a boolean predicate on assignments `Nat → Int`.  Variable
creation (`NewIntVar`, `NewBoolVar`) records the domain as a constraint;
`OnlyEnforceIf` becomes an implication guarded by a literal. -/

/-- Assignments of integer values to model variables. -/
abbrev Assign := Nat → Int

/-- An argument of `to_model`'s `comp_ids` list: either a model variable or a
literal integer (the `-1` used for walls). -/
inductive CVal where
  | var (i : Nat)
  | const (z : Int)

/-- Value of a `CVal` under an assignment. -/
def CVal.eval (σ : Assign) : CVal → Int
  | .var i => σ i
  | .const z => z

/-- A CP-SAT boolean literal: a variable or its negation (`.Not()`). -/
inductive Lit where
  | pos (i : Nat)
  | neg (i : Nat)

/-- Whether a literal holds under an assignment (boolean variables are
`0`/`1`-valued by their domain constraints). -/
def Lit.holds (σ : Assign) : Lit → Bool
  | .pos i => σ i == 1
  | .neg i => σ i == 0

/-- The embedded CP-SAT model state. -/
structure CpModel where
  nextVar : Nat
  constraints : List (Assign → Bool)

/-- The empty model. -/
def CpModel.empty : CpModel := { nextVar := 0, constraints := [] }

/-- Whether an assignment satisfies every constraint of a model. -/
def CpModel.sat (md : CpModel) (σ : Assign) : Bool :=
  md.constraints.all (fun c => c σ)

/-- `model.NewIntVar(lo, hi, ...)`: a fresh variable with its domain
constraint. -/
def newVar (lo hi : Int) (md : CpModel) : Nat × CpModel :=
  (md.nextVar,
    { nextVar := md.nextVar + 1,
      constraints := md.constraints ++ [fun σ => lo ≤ σ md.nextVar && σ md.nextVar ≤ hi] })

/-- `model.NewBoolVar(...)`. -/
def newBoolVar (md : CpModel) : Nat × CpModel := newVar 0 1 md

/-- A batch of fresh variables sharing one domain (a Python list
comprehension of `NewIntVar`/`NewBoolVar` calls). -/
def newVars (lo hi : Int) : Nat → CpModel → List Nat × CpModel
  | 0, md => ([], md)
  | k + 1, md =>
    let r := newVar lo hi md
    let rest := newVars lo hi k r.2
    (r.1 :: rest.1, rest.2)

/-- `model.Add(c)` for an unconditional constraint. -/
def addC (c : Assign → Bool) (md : CpModel) : CpModel :=
  { md with constraints := md.constraints ++ [c] }

/-- `model.Add(c).OnlyEnforceIf(lit)` and the reified boolean constraints
(`AddBoolAnd`/`AddBoolOr` with `OnlyEnforceIf`): the constraint guarded by the
literal. -/
def onlyIf (l : Lit) (c : Assign → Bool) : Assign → Bool :=
  fun σ => !(l.holds σ) || c σ

/-- The dict comprehension `{comp: i for i, comp in enumerate(type_names)}`
looked up at `name`; a missing key raises `KeyError`, modelled as `none`.
Later indices overwrite earlier ones for duplicate names, as in Python. -/
def nameToId (type_names : List String) (name : String) : Option Nat :=
  type_names.enum.foldl (fun acc ic => if ic.2 == name then some ic.1 else acc) none

mutual

/-- `PlacementRule.to_model` and its overrides, from
`core/placement_rule.py`.  Returns the index of the `satisfied` boolean
variable together with the extended model, or `none` where the Python call
raises.

For a `SimplePlacementRule` with `axial=True` the source writes
`model.Add(axial and quantity[-1] == self.quantity)` and
`model.Add(axial.Not() or quantity[-1] != self.quantity)`: Python's `and`/`or`
truth-evaluate their left operand, which is an OR-Tools variable object, so
the first `Add` receives only the quantity comparison and the second receives
the bare literal `axial.Not()` (on current OR-Tools these evaluations raise;
the embedding charitably keeps the surviving operand, enforcing the literal).
The axial conjunct of the `satisfied` direction is therefore dropped. -/
def Rule.toModel : Rule → List String → List CVal → CpModel → Option (Nat × CpModel)
  | .base, _, _, md =>
      let r := newBoolVar md
      some (r.1, addC (fun σ => σ r.1 == 1) r.2)
  | .simple name quantity exact axial, type_names, comp_ids, md =>
      match nameToId type_names name with
      | none => none
      | some tid =>
        let k := comp_ids.length
        let rq := newVars 0 (k : Int) k md
        let quantityVars := rq.1
        let rm := newVars 0 1 k rq.2
        let matchVars := rm.1
        let md := (List.range k).foldl
          (fun md i =>
            let mi := matchVars.getD i 0
            let ci := comp_ids.getD i (.const 0)
            let qi := quantityVars.getD i 0
            let prev : Assign → Int :=
              if i = 0 then (fun _ => 0) else (fun σ => σ (quantityVars.getD (i - 1) 0))
            let md := addC (onlyIf (.pos mi) (fun σ => ci.eval σ == (tid : Int))) md
            let md := addC (onlyIf (.neg mi) (fun σ => !(ci.eval σ == (tid : Int)))) md
            let md := addC (onlyIf (.pos mi) (fun σ => σ qi == prev σ + 1)) md
            addC (onlyIf (.neg mi) (fun σ => σ qi == prev σ)) md)
          rm.2
        let ra := newVars 0 1 (k / 2) md
        let axials := ra.1
        let md := (List.range (k / 2)).foldl
          (fun md i =>
            let ax := axials.getD i 0
            let m0 := matchVars.getD (i * 2) 0
            let m1 := matchVars.getD (i * 2 + 1) 0
            let md := addC (onlyIf (.pos ax) (fun σ => σ m0 == 1 && σ m1 == 1)) md
            addC (onlyIf (.neg ax) (fun σ => σ m0 == 0 || σ m1 == 0)) md)
          ra.2
        let rax := newBoolVar md
        let axialVar := rax.1
        let md := addC (onlyIf (.pos axialVar) (fun σ => axials.any (fun a => σ a == 1))) rax.2
        let md := addC (onlyIf (.neg axialVar) (fun σ => axials.all (fun a => σ a == 0))) md
        let rs := newBoolVar md
        let satisfied := rs.1
        let md := rs.2
        match quantityVars.getLast? with
        | none => none
        | some qlast =>
          if axial then
            if exact then
              some (satisfied,
                addC (onlyIf (.neg satisfied) (fun σ => σ axialVar == 0))
                  (addC (onlyIf (.pos satisfied) (fun σ => σ qlast == quantity)) md))
            else
              some (satisfied,
                addC (onlyIf (.neg satisfied) (fun σ => σ axialVar == 0))
                  (addC (onlyIf (.pos satisfied) (fun σ => quantity ≤ σ qlast)) md))
          else
            if exact then
              some (satisfied,
                addC (onlyIf (.neg satisfied) (fun σ => !(σ qlast == quantity)))
                  (addC (onlyIf (.pos satisfied) (fun σ => σ qlast == quantity)) md))
            else
              some (satisfied,
                addC (onlyIf (.neg satisfied) (fun σ => σ qlast < quantity))
                  (addC (onlyIf (.pos satisfied) (fun σ => quantity ≤ σ qlast)) md))
  | .compound rules mode, type_names, comp_ids, md =>
      match Rule.toModelList rules type_names comp_ids md with
      | none => none
      | some vm =>
        let vs := vm.1
        let rs := newBoolVar vm.2
        let satisfied := rs.1
        let sum : Assign → Int := fun σ => (vs.map σ).sum
        match mode with
        | .AND =>
          some (satisfied,
            addC (onlyIf (.neg satisfied) (fun σ => sum σ < (vs.length : Int)))
              (addC (onlyIf (.pos satisfied) (fun σ => (vs.length : Int) ≤ sum σ)) rs.2))
        | .OR =>
          some (satisfied,
            addC (onlyIf (.neg satisfied) (fun σ => sum σ == 0))
              (addC (onlyIf (.pos satisfied) (fun σ => 0 < sum σ)) rs.2))

/-- The `satisfied_vars` list comprehension of `CompoundPlacementRule.to_model`:
lower each child rule in order, threading the model. -/
def Rule.toModelList : List Rule → List String → List CVal → CpModel → Option (List Nat × CpModel)
  | [], _, _, md => some ([], md)
  | r :: rs, type_names, comp_ids, md =>
      match Rule.toModel r type_names comp_ids md with
      | none => none
      | some v =>
        match Rule.toModelList rs type_names comp_ids v.2 with
        | none => none
        | some vm => some (v.1 :: vm.1, vm.2)

end

/-! ## Backtracking optimizer (optimizer.py)

`OptimizableSequence` holds a fixed `length`, a `max_value`, a list of
constraints on raw integer sequences (`0` meaning unassigned) and a scoring
function.  Python's float scores are embedded as rationals.  The mutable
`self.sequence` is passed explicitly; every operation returns its Python
boolean result together with the sequence afterwards.  The unbounded
`while` loops (`next_valid_sequence`, `optimize`) take explicit fuel. -/

/-- The immutable data of an `OptimizableSequence`. -/
structure OptSeq where
  length : Nat
  max_value : Nat
  constraints : List (List Nat → Bool)
  scoring_func : List Nat → ℚ

/-- The initial `self.sequence`: all zeros. -/
def initSeq (cfg : OptSeq) : List Nat := List.replicate cfg.length 0

/-- `OptimizableSequence.is_valid`. -/
def is_valid (cfg : OptSeq) (s : List Nat) : Bool :=
  cfg.constraints.all (fun c => c s)

/-- `OptimizableSequence.is_complete`: no zero entry. -/
def is_complete (s : List Nat) : Bool :=
  s.all (fun v => !(v == 0))

/-- `OptimizableSequence.score`. -/
def score (cfg : OptSeq) (s : List Nat) : ℚ :=
  cfg.scoring_func s

/-- Helper for `advance` acting on the reversed sequence (the Python loop
runs over indices `length-1 .. 0`): find the first nonzero entry; fail if it
equals `max_value`, else increment it. -/
def advanceR (m : Nat) : List Nat → Bool × List Nat
  | [] => (false, [])
  | x :: xs =>
    if x ≠ 0 then
      if x = m then (false, x :: xs) else (true, (x + 1) :: xs)
    else
      let r := advanceR m xs
      (r.1, x :: r.2)

/-- `OptimizableSequence.advance`. -/
def advance (cfg : OptSeq) (s : List Nat) : Bool × List Nat :=
  let r := advanceR cfg.max_value s.reverse
  (r.1, r.2.reverse)

/-- `OptimizableSequence.next_row`: assign `1` to the leftmost zero. -/
def next_row : List Nat → Bool × List Nat
  | [] => (false, [])
  | x :: xs =>
    if x = 0 then (true, 1 :: xs)
    else
      let r := next_row xs
      (r.1, x :: r.2)

/-- Helper for `prev_row` on the reversed sequence: zero the first nonzero
entry, retry `advance` on the result, and recurse while `advance` fails.
Since the retried `advance` and the recursive `prev_row` both skip the
just-zeroed entry before acting on the remainder, they are applied to the
tail directly and the zero is re-prepended, which keeps the recursion
structural. -/
def prevRowR (m : Nat) : List Nat → Bool × List Nat
  | [] => (false, [])
  | x :: xs =>
    if x ≠ 0 then
      let a := advanceR m xs
      if a.1 then (true, 0 :: a.2)
      else
        let r := prevRowR m xs
        (r.1, 0 :: r.2)
    else
      let r := prevRowR m xs
      (r.1, x :: r.2)

/-- `OptimizableSequence.prev_row`. -/
def prev_row (cfg : OptSeq) (s : List Nat) : Bool × List Nat :=
  let r := prevRowR cfg.max_value s.reverse
  (r.1, r.2.reverse)

/-- `OptimizableSequence.next_sequence`:
`next_row() or advance() or prev_row()` when valid, else
`advance() or prev_row()`, with Python's short-circuiting on the mutated
state. -/
def next_sequence (cfg : OptSeq) (s : List Nat) : Bool × List Nat :=
  if is_valid cfg s then
    let r1 := next_row s
    if r1.1 then r1
    else
      let r2 := advance cfg r1.2
      if r2.1 then r2 else prev_row cfg r2.2
  else
    let r2 := advance cfg s
    if r2.1 then r2 else prev_row cfg r2.2

/-- `OptimizableSequence.next_valid_sequence`, with fuel for the `while`
loop. -/
def next_valid_sequence (cfg : OptSeq) : Nat → List Nat → Bool × List Nat
  | 0, s => (false, s)
  | fuel + 1, s =>
    let r := next_sequence cfg s
    if !r.1 then (false, r.2)
    else if is_valid cfg r.2 then (true, r.2)
    else next_valid_sequence cfg fuel r.2

/-- The successive states produced by repeated `next_sequence` calls, until
the first failure (at most `fuel` of them). -/
def chain (cfg : OptSeq) : Nat → List Nat → List (List Nat)
  | 0, _ => []
  | fuel + 1, s =>
    let r := next_sequence cfg s
    if r.1 then r.2 :: chain cfg fuel r.2 else []

/-- The successive states at which repeated `next_valid_sequence` calls stop
(the states the enumeration "visits"). -/
def visited (cfg : OptSeq) (fuel : Nat) : Nat → List Nat → List (List Nat)
  | 0, _ => []
  | iter + 1, s =>
    let r := next_valid_sequence cfg fuel s
    if r.1 then r.2 :: visited cfg fuel iter r.2 else []

/-- The loop of `OptimizableSequence.optimize`, carrying `opt_seq` and
`opt_score` (initially `None` and `-inf`, embedded as `none` and `⊥`). -/
def optimizeLoop (cfg : OptSeq) (fuel : Nat) :
    Nat → List Nat → Option (List Nat) → WithBot ℚ → Option (List Nat) × List Nat
  | 0, s, optSeq, _ => (optSeq, s)
  | iter + 1, s, optSeq, optScore =>
    let r := next_valid_sequence cfg fuel s
    if r.1 then
      if is_complete r.2 && decide (optScore < ((score cfg r.2 : ℚ) : WithBot ℚ)) then
        optimizeLoop cfg fuel iter r.2 (some r.2) ((score cfg r.2 : ℚ) : WithBot ℚ)
      else optimizeLoop cfg fuel iter r.2 optSeq optScore
    else (optSeq, r.2)

/-- `OptimizableSequence.optimize`.  The final `if opt_seq:` is Python list
truthiness: `None` and the empty list are falsy. -/
def optimize (cfg : OptSeq) (fuel iter : Nat) (s : List Nat) : Bool × List Nat :=
  let r := optimizeLoop cfg fuel iter s none ⊥
  match r.1 with
  | some t => if t = [] then (false, r.2) else (true, t)
  | none => (false, r.2)

/-! ## Analysis-side definitions for the enumeration

A sequence state whose assigned cells form a prefix is abbreviated by the
list `p` of its assigned values; `conc` maps it back to the raw state. -/

/-- The raw state having assigned prefix `p` and zeros elsewhere (for a
sequence of length `n`). -/
def conc (n : Nat) (p : List Nat) : List Nat :=
  p ++ List.replicate (n - p.length) 0

/-- The prefix states of a length-`n`, max-`m` search. -/
def PState (n m : Nat) (p : List Nat) : Prop :=
  p.length ≤ n ∧ ∀ v ∈ p, 1 ≤ v ∧ v ≤ m

/-- Successor-sibling on reversed prefixes: increment the last entry that is
below `m`, dropping maxed-out entries after it. -/
def sibSuccR (m : Nat) : List Nat → Option (List Nat)
  | [] => none
  | v :: q => if v < m then some ((v + 1) :: q) else sibSuccR m q

/-- Successor-sibling of a prefix state: drop trailing `m`s and increment the
last remaining entry; `none` when every entry is `m`. -/
def sibSucc (m : Nat) (p : List Nat) : Option (List Nat) :=
  (sibSuccR m p.reverse).map List.reverse

/-- The abstract successor computed by `next_sequence` on prefix states:
descend to the first child when valid and not full, otherwise move to the
successor sibling of the nearest extendable ancestor. -/
def nextAbs (cfg : OptSeq) (p : List Nat) : Option (List Nat) :=
  if is_valid cfg (conc cfg.length p) then
    if p.length < cfg.length then some (p ++ [1]) else sibSucc cfg.max_value p
  else sibSucc cfg.max_value p

/-- Iterating `nextAbs`, collecting the visited prefix states. -/
def chainA (cfg : OptSeq) : Nat → List Nat → List (List Nat)
  | 0, _ => []
  | fuel + 1, p =>
    match nextAbs cfg p with
    | some q => q :: chainA cfg fuel q
    | none => []

/-- Boolean strict lexicographic order on lists of naturals, where a proper
initial segment precedes its extensions. -/
def lexLt : List Nat → List Nat → Bool
  | [], [] => false
  | [], _ :: _ => true
  | _ :: _, [] => false
  | x :: xs, y :: ys => x < y || (x == y && lexLt xs ys)

/-- The pre-order (depth-first) listing of all prefix states below `p`, to
remaining depth `d`, with children `p ++ [1] .. p ++ [m]` in order. -/
def subtreeList (m : Nat) : Nat → List Nat → List (List Nat)
  | 0, p => [p]
  | d + 1, p =>
    p :: ((List.range m).map (fun v => subtreeList m d (p ++ [v + 1]))).flatten

/-- All prefix states of the search, in pre-order. -/
def allStates (n m : Nat) : List (List Nat) :=
  subtreeList m n []

/-- All complete sequences over `(1..m)^n`, in lexicographic order. -/
def allTuples (m : Nat) : Nat → List (List Nat)
  | 0 => [[]]
  | n + 1 => (List.range m).flatMap (fun v => (allTuples m n).map (fun t => (v + 1) :: t))

/-- Whether every strict initial segment of the prefix state `p` is a valid
partial sequence: the enumeration lands exactly on such states. -/
def reachableB (cfg : OptSeq) (p : List Nat) : Bool :=
  (List.range p.length).all (fun k => is_valid cfg (conc cfg.length (p.take k)))

/-- Extension of raw integer sequences: same length, every nonzero (assigned)
entry preserved. -/
def ExtendsSeq (s t : List Nat) : Prop :=
  s.length = t.length ∧ ∀ i, i < s.length → s.getD i 0 ≠ 0 → t.getD i 0 = s.getD i 0

/-- A constraint on raw sequences is monotone when falsity is preserved by
extensions: once a partial sequence violates it, every extension does. -/
def MonotoneConstraint (c : List Nat → Bool) : Prop :=
  ∀ s t, ExtendsSeq s t → c s = false → c t = false

/-- The centred shaft block as the spec states it (§3): for odd `S` the square
of radius `(shaft_width − 1)/2` around `(S − 1)/2`; for even `S` the rows and
columns in `[S/2 − shaft_width/2, S/2 + shaft_width/2 − 1]`. -/
def specShaftBlock (side : Nat) (shaft_width : Int) (y x : Nat) : Prop :=
  if side % 2 = 1 then
    let mid : Int := ((side : Int) - 1) / 2
    let r : Int := (shaft_width - 1).fdiv 2
    mid - r ≤ (x : Int) ∧ (x : Int) ≤ mid + r ∧ mid - r ≤ (y : Int) ∧ (y : Int) ≤ mid + r
  else
    let h : Int := (side : Int) / 2
    let w2 : Int := shaft_width.fdiv 2
    h - w2 ≤ (x : Int) ∧ (x : Int) ≤ h + w2 - 1 ∧ h - w2 ≤ (y : Int) ∧ (y : Int) ≤ h + w2 - 1

instance (side : Nat) (sw : Int) (y x : Nat) : Decidable (specShaftBlock side sw y x) := by
  unfold specShaftBlock
  infer_instance

/-- The `opt_seq`/`opt_score` update of `optimize`'s loop applied across a
list of visited states: replace the retained best exactly when the visited
state is complete and scores strictly higher. -/
def bestFold (cfg : OptSeq) (V : List (List Nat))
    (acc : Option (List Nat) × WithBot ℚ) : Option (List Nat) × WithBot ℚ :=
  V.foldl
    (fun acc v =>
      if is_complete v && decide (acc.2 < ((score cfg v : ℚ) : WithBot ℚ)) then
        (some v, ((score cfg v : ℚ) : WithBot ℚ))
      else acc)
    acc

/-- An assignment satisfying every constraint emitted by lowering the axial
gold rule (`Simple("gold", 2, axial=True)`) over neighbour variables
`100, 101` (walls passed as the literal `-1`), with the neighbour variables
fixed to the catalog index `0` of `"gold"` and the returned `satisfied`
variable (index 11) set to `1`. -/
def sigC1 : Assign := fun i =>
  if i = 0 then 1 else if i = 1 then 1 else if i = 2 then 2 else if i = 3 then 2
  else if i = 4 then 1 else if i = 5 then 0 else if i = 6 then 1 else if i = 7 then 0
  else if i = 11 then 1
  else 0

/-- The same assignment with the `satisfied` variable set to `0` instead:
both values are consistent with the emitted constraints. -/
def sigC0 : Assign := fun i =>
  if i = 0 then 1 else if i = 1 then 1 else if i = 2 then 2 else if i = 3 then 2
  else if i = 4 then 1 else if i = 5 then 0 else if i = 6 then 1 else if i = 7 then 0
  else 0

/-- The prefix states the enumeration still has to visit after `p`: the
reachable states strictly after `p` in pre-order. -/
def remStates (cfg : OptSeq) (p : List Nat) : List (List Nat) :=
  (allStates cfg.length cfg.max_value).filter
    (fun x => reachableB cfg x && lexLt p x)

/-- The remaining states that stop the `next_valid_sequence` loop: the
remaining states that are themselves valid. -/
def remValid (cfg : OptSeq) (p : List Nat) : List (List Nat) :=
  (remStates cfg p).filter (fun x => is_valid cfg (conc cfg.length x))

/-- One public mutating operation of `OptimizableSequence`. -/
inductive SeqOp where
  | adv : SeqOp
  | nrow : SeqOp
  | prow : SeqOp
  | nseq : SeqOp
  | nvs : Nat → SeqOp

/-- Apply one operation to `self.sequence`, keeping the mutated state. -/
def applyOp (cfg : OptSeq) : SeqOp → List Nat → List Nat
  | SeqOp.adv, s => (advance cfg s).2
  | SeqOp.nrow, s => (next_row s).2
  | SeqOp.prow, s => (prev_row cfg s).2
  | SeqOp.nseq, s => (next_sequence cfg s).2
  | SeqOp.nvs fuel, s => (next_valid_sequence cfg fuel s).2

/-- Apply a finite sequence of operations in order. -/
def applyOps (cfg : OptSeq) (ops : List SeqOp) (s : List Nat) : List Nat :=
  ops.foldl (fun s op => applyOp cfg op s) s

/-- The invariant claimed for `self.sequence`: the assigned cells form a
prefix — some `k` entries in `[1, max_value]` followed by zeros. -/
def PrefixForm (cfg : OptSeq) (s : List Nat) : Prop :=
  ∃ p, PState cfg.length cfg.max_value p ∧ s = conc cfg.length p

/-- The claimed invariant, stated directly on entries with the bound
`k ≤ length` (decidable form used by the counterexample). -/
def PrefixFormIdx (cfg : OptSeq) (s : List Nat) : Prop :=
  ∃ k, k ≤ cfg.length ∧
    (∀ i < k, 1 ≤ s.getD i 0 ∧ s.getD i 0 ≤ cfg.max_value) ∧
    (∀ i, k ≤ i → i < cfg.length → s.getD i 0 = 0)

/-- A one-cell search with `max_value = 0`: `next_row` still writes a `1`,
which escapes the claimed range `[1, max_value]`. -/
def cfgZero : OptSeq :=
  { length := 1, max_value := 0, constraints := [], scoring_func := fun _ => 0 }

/-- A one-cell search whose single constraint demands the cell be already
assigned to `1`: it rejects the initial all-zero state, so it is not
monotone, and the enumeration aborts before visiting anything. -/
def cfgSkip : OptSeq :=
  { length := 1, max_value := 1,
    constraints := [fun s => s.getD 0 0 == 1], scoring_func := fun _ => 0 }

/-- An unconstrained two-cell search over `{1, 2}` used to instantiate the
enumeration and optimizer theorems; the score rewards a `2` in the first
cell, so the retained optimum is the first of the two top scorers. -/
def cfgFree : OptSeq :=
  { length := 2, max_value := 2, constraints := [],
    scoring_func := fun s => if s.getD 0 0 == 2 then (1 : ℚ) else 0 }

/-! # Theorems -/

/-! ## Index-map lemmas (C5, C6) -/

theorem dimsProd_cons_zero (d : Nat) (ds : List Nat) :
    dimsProd (d :: ds) 0 = d * ds.prod := by
  simp [dimsProd]

theorem dimsProd_cons_succ (d : Nat) (ds : List Nat) (i : Nat) :
    dimsProd (d :: ds) (i + 1) = dimsProd ds i := by
  simp [dimsProd]

theorem dimsProd_dvd (ds : List Nat) (i : Nat) : dimsProd ds i ∣ ds.prod := by
  refine ⟨(ds.take i).prod, ?_⟩
  rw [dimsProd, mul_comm, List.prod_take_mul_prod_drop]

theorem int_to_tuple_nil (k : Nat) : int_to_tuple [] k = [] := rfl

theorem tuple_to_int_nil (t : List Nat) : tuple_to_int [] t = 0 := rfl

theorem int_to_tuple_cons (d : Nat) (ds : List Nat) (k : Nat) :
    int_to_tuple (d :: ds) k = (k % (d * ds.prod)) / ds.prod :: int_to_tuple ds k := by
  simp only [int_to_tuple, List.length_cons, List.range_succ_eq_map, List.map_cons,
    List.map_map, dimsProd_cons_zero, Function.comp]
  refine congrArg₂ List.cons ?_ ?_
  · have h1 : dimsProd (d :: ds) 1 = ds.prod := by simp [dimsProd]
    rw [h1]
  · apply List.map_congr_left
    intro i _
    simp only [Function.comp_apply, dimsProd_cons_succ]

theorem tuple_to_int_cons (d x : Nat) (ds xs : List Nat) :
    tuple_to_int (d :: ds) (x :: xs) = x * ds.prod + tuple_to_int ds xs := by
  simp only [tuple_to_int, List.length_cons, List.range_succ_eq_map, List.map_cons,
    List.map_map, List.sum_cons, Function.comp]
  refine congrArg₂ (· + ·) ?_ ?_
  · have h1 : dimsProd (d :: ds) 1 = ds.prod := by simp [dimsProd]
    rw [h1]
    rfl
  · refine congrArg List.sum ?_
    apply List.map_congr_left
    intro i _
    simp only [Function.comp_apply, dimsProd_cons_succ]
    rfl

theorem int_to_tuple_mod (ds : List Nat) (k : Nat) :
    int_to_tuple ds (k % ds.prod) = int_to_tuple ds k := by
  unfold int_to_tuple
  apply List.map_congr_left
  intro i _
  have hdvd : dimsProd ds i ∣ ds.prod := dimsProd_dvd ds i
  rw [Nat.mod_mod_of_dvd _ hdvd]

theorem tuple_to_int_int_to_tuple (ds : List Nat) (k : Nat) (hk : k < ds.prod) :
    tuple_to_int ds (int_to_tuple ds k) = k := by
  induction ds generalizing k with
  | nil =>
    rw [int_to_tuple_nil, tuple_to_int_nil]
    simp only [List.prod_nil] at hk
    omega
  | cons d ds ih =>
    have hP : 0 < ds.prod := by
      rcases Nat.eq_zero_or_pos ds.prod with h0 | h0
      · rw [List.prod_cons, h0, Nat.mul_zero] at hk
        omega
      · exact h0
    rw [int_to_tuple_cons, tuple_to_int_cons, ← int_to_tuple_mod, ih (k % ds.prod) (Nat.mod_lt _ hP)]
    rw [List.prod_cons] at hk
    rw [Nat.mod_eq_of_lt hk]
    exact Nat.div_add_mod' k ds.prod

theorem tuple_to_int_lt (ds t : List Nat) (h : List.Forall₂ (· < ·) t ds) :
    tuple_to_int ds t < ds.prod := by
  induction h with
  | nil => simp [tuple_to_int_nil]
  | cons hxd htail ih =>
    rename_i x d xs ds2
    rw [tuple_to_int_cons, List.prod_cons]
    have h1 : x * ds2.prod + tuple_to_int ds2 xs < x * ds2.prod + ds2.prod := by omega
    have h2 : x * ds2.prod + ds2.prod = (x + 1) * ds2.prod := by ring
    have h3 : (x + 1) * ds2.prod ≤ d * ds2.prod :=
      Nat.mul_le_mul_right _ hxd
    omega

theorem int_to_tuple_tuple_to_int (ds t : List Nat) (h : List.Forall₂ (· < ·) t ds) :
    int_to_tuple ds (tuple_to_int ds t) = t := by
  induction h with
  | nil => simp [tuple_to_int_nil, int_to_tuple_nil]
  | cons hxd htail ih =>
    rename_i x d xs ds2
    have hT : tuple_to_int ds2 xs < ds2.prod := tuple_to_int_lt ds2 xs htail
    rw [tuple_to_int_cons, int_to_tuple_cons]
    have hlt : x * ds2.prod + tuple_to_int ds2 xs < d * ds2.prod := by
      have h2 : x * ds2.prod + ds2.prod = (x + 1) * ds2.prod := by ring
      have h3 : (x + 1) * ds2.prod ≤ d * ds2.prod := Nat.mul_le_mul_right _ hxd
      omega
    have hP : 0 < ds2.prod := by omega
    rw [Nat.mod_eq_of_lt hlt]
    refine congrArg₂ List.cons ?_ ?_
    · rw [Nat.add_comm, Nat.add_mul_div_right _ _ hP, Nat.div_eq_of_lt hT]
      omega
    · rw [← int_to_tuple_mod, Nat.add_comm, Nat.add_mul_mod_self_right,
        Nat.mod_eq_of_lt hT, ih]

/-- Claim C5: on any `MultiSequence` data `(buffer, dims)` satisfying the
length invariant, `tuple_to_int` and `int_to_tuple` are mutually inverse:
`tuple_to_int (int_to_tuple k) = k` for every flat key `k < len(buffer)`, and
`int_to_tuple (tuple_to_int t) = t` for every coordinate tuple `t` that is
pointwise below `dims`. -/
theorem multiseq_index_maps_inverse (E : Type) (ms : MultiSequence E) (hwf : ms.wf) :
    (∀ k, k < ms.seq.length → tuple_to_int ms.dims (int_to_tuple ms.dims k) = k) ∧
    (∀ t, List.Forall₂ (· < ·) t ms.dims → int_to_tuple ms.dims (tuple_to_int ms.dims t) = t) := by
  constructor
  · intro k hk
    exact tuple_to_int_int_to_tuple ms.dims k (by rw [MultiSequence.wf] at hwf; omega)
  · intro t ht
    exact int_to_tuple_tuple_to_int ms.dims t ht

/-- Witness for C5 at `dims = [2,3]`, `buffer` of length 6, `k = 5`,
`t = [1,2]`. -/
theorem multiseq_index_maps_inverse_witness :
    tuple_to_int [2, 3] (int_to_tuple [2, 3] 5) = 5 ∧
    int_to_tuple [2, 3] (tuple_to_int [2, 3] [1, 2]) = [1, 2] := by
  have h := multiseq_index_maps_inverse Nat (MultiSequence.mk [10, 11, 12, 13, 14, 15] [2, 3])
    rfl
  exact ⟨h.1 5 (by decide), h.2 [1, 2] (by decide)⟩

/-- Counterexample to claim C6: on the well-formed `MultiSequence` with
`dims = (2,3)`, the tuple key `(0,5)` has a coordinate `5 ≥ 3` yet lookup
silently returns the buffer element at flat index 5 instead of failing. -/
theorem getitem_out_of_range_counterexample :
    (MultiSequence.mk [10, 11, 12, 13, 14, 15] [2, 3]).wf ∧
    [2, 3].getD 1 0 ≤ 5 ∧
    getItem (MultiSequence.mk [10, 11, 12, 13, 14, 15] [2, 3]) [0, 5] = some 15 := by
  refine ⟨rfl, by decide, rfl⟩

/-- Claim C6 amended: tuple lookup fails exactly when the flattened index
`tuple_to_int dims key` falls outside the buffer; a key with a coordinate at
or above its dimension whose flattened index is still in range silently
returns the aliased element. -/
theorem getitem_fails_iff_flat_out_of_range (E : Type) (ms : MultiSequence E) (key : List Nat) :
    getItem ms key = none ↔ ms.seq.length ≤ tuple_to_int ms.dims key := by
  simp [getItem, List.getElem?_eq_none_iff]

/-! ## SimplePlacementRule (C4) -/

/-- Claim C4: `SimplePlacementRule(name, quantity, exact, axial)` returns
true whenever a neighbour is `"incomplete"`; otherwise it is satisfied iff
the count `q` of neighbours equal to `name` meets the quantity requirement
(`q = quantity` when exact, `q ≥ quantity` otherwise) and, when `axial` is
set, some axis `d` has both opposing neighbours `2d`, `2d+1` equal to `name`.
In particular PR-2: the gold rule accepts `("gold","gold","wall","wall")`
and rejects `("gold","wall","gold","wall")`. -/
theorem simple_eval_cases (quantity q : Int) (exact axial axB : Bool) :
    ((if exact then
        if q != quantity then false
        else if axial && !axB then false else true
      else
        if q < quantity then false
        else if axial && !axB then false else true) = true) ↔
      ((if exact then q = quantity else quantity ≤ q) ∧ (axial = true → axB = true)) := by
  cases exact <;> cases axial <;> cases axB <;> simp [bne_iff_ne]

theorem simple_rule_characterization :
    (∀ (name : String) (quantity : Int) (exact axial : Bool) (comp_names : List String),
      Rule.eval (.simple name quantity exact axial) comp_names = true ↔
        ("incomplete" ∈ comp_names ∨
          ((if exact then (comp_names.countP (· == name) : Int) = quantity
            else quantity ≤ (comp_names.countP (· == name) : Int)) ∧
           (axial = true →
             ∃ d, 2 * d + 1 < comp_names.length ∧
               comp_names.getD (2 * d) "" = name ∧ comp_names.getD (2 * d + 1) "" = name)))) ∧
    Rule.eval (.simple "gold" 2 false true) ["gold", "gold", "wall", "wall"] = true ∧
    Rule.eval (.simple "gold" 2 false true) ["gold", "wall", "gold", "wall"] = false := by
  refine ⟨?_, by decide, by decide⟩
  intro name quantity exact axial cn
  by_cases hc : cn.contains "incomplete" = true
  · have hmem : "incomplete" ∈ cn := by simpa using hc
    simp [Rule.eval, hc, hmem]
  · have hnotmem : ¬ ("incomplete" ∈ cn) := fun h => hc (by simpa using h)
    have hax : ((List.range (cn.length / 2)).any
        (fun i => cn.getD (i * 2) "" == cn.getD (i * 2 + 1) ""
          && cn.getD (i * 2 + 1) "" == name)) = true ↔
        (∃ d, 2 * d + 1 < cn.length ∧
          cn.getD (2 * d) "" = name ∧ cn.getD (2 * d + 1) "" = name) := by
      simp only [List.any_eq_true, List.mem_range, Bool.and_eq_true, beq_iff_eq]
      constructor
      · rintro ⟨i, hi, h1, h2⟩
        exact ⟨i, by omega, by rw [Nat.mul_comm]; rw [h1, h2], by rw [Nat.mul_comm]; exact h2⟩
      · rintro ⟨d, hd, h1, h2⟩
        refine ⟨d, by omega, ?_, ?_⟩
        · rw [Nat.mul_comm] at h1 h2
          rw [h1, h2]
        · rw [Nat.mul_comm] at h2
          exact h2
    have hshape := simple_eval_cases quantity (cn.countP (· == name) : Int) exact axial
      ((List.range (cn.length / 2)).any
        (fun i => cn.getD (i * 2) "" == cn.getD (i * 2 + 1) ""
          && cn.getD (i * 2 + 1) "" == name))
    simp only [Rule.eval, hc, if_false, hnotmem, false_or]
    exact Iff.trans hshape (and_congr_right (fun _ => imp_congr_right (fun _ => hax)))

/-! ## CenteredBearingsConstraint (C7) -/

theorem tuple_to_int_pair (S y x : Nat) : tuple_to_int [S, S] [y, x] = y * S + x := by
  rw [tuple_to_int_cons, tuple_to_int_cons, tuple_to_int_nil]
  simp

theorem pair_flat_lt (S y x : Nat) (hy : y < S) (hx : x < S) : y * S + x < S * S := by
  have h1 : (y + 1) * S ≤ S * S := Nat.mul_le_mul_right _ (by omega)
  have h2 : (y + 1) * S = y * S + S := by ring
  omega

theorem inShaftBlock_iff_spec (S : Nat) (sw : Int) (y x : Nat) :
    inShaftBlock S sw y x = true ↔ specShaftBlock S sw y x := by
  unfold inShaftBlock specShaftBlock
  by_cases hpar : S % 2 = 1
  · rw [if_pos hpar, if_pos hpar]
    have hS1 : (0 : Int) ≤ (S : Int) - 1 := by omega
    rw [Int.fdiv_eq_ediv _ (by norm_num : (0:Int) ≤ 2)] at *
    simp only [Bool.and_eq_true, decide_eq_true_eq]
    rw [Int.fdiv_eq_ediv _ (by norm_num : (0:Int) ≤ 2)]
    tauto
  · rw [if_neg hpar, if_neg hpar]
    simp only [Bool.and_eq_true, decide_eq_true_eq]
    rw [Int.fdiv_eq_ediv _ (by norm_num : (0:Int) ≤ 2),
      Int.fdiv_eq_ediv _ (by norm_num : (0:Int) ≤ 2)]
    omega

theorem cell_exists_of_full (P : Layout) (S y x : Nat) (hdims : P.dims = [S, S])
    (hlen : P.seq.length = S * S) (hfull : ∀ c ∈ P.seq, c ≠ none)
    (hy : y < S) (hx : x < S) :
    ∃ comp, cellAt P [y, x] = some comp := by
  have hidx : tuple_to_int P.dims [y, x] = y * S + x := by
    rw [hdims, tuple_to_int_pair]
  have hlt : y * S + x < P.seq.length := by
    rw [hlen]
    exact pair_flat_lt S y x hy hx
  have hget : P.seq[y * S + x]? = some (P.seq.get ⟨y * S + x, hlt⟩) :=
    List.getElem?_eq_getElem hlt
  have hmem : P.seq.get ⟨y * S + x, hlt⟩ ∈ P.seq := List.getElem_mem hlt
  have hne := hfull _ hmem
  obtain ⟨comp, hcomp⟩ := Option.ne_none_iff_exists.mp hne
  refine ⟨comp, ?_⟩
  rw [cellAt, getItem, hidx, hget, ← hcomp]
  rfl

/-- Claim C7: on any fully assigned `S × S` grid, `CenteredBearingsConstraint`
accepts iff the cells named `"bearing"` are exactly the centred block the spec
describes (radius `(shaft_width−1)/2` around `(S−1)/2` for odd `S`; rows and
columns in `[S/2 − w/2, S/2 + w/2 − 1]` for even `S`); and for `S = 4`,
`shaft_width = 2` that block is exactly `{(1,1),(1,2),(2,1),(2,2)}`. -/
theorem centered_bearings_characterization :
    (∀ (S : Nat) (sw : Int) (P : Layout),
      P.dims = [S, S] → P.seq.length = S * S → (∀ c ∈ P.seq, c ≠ none) →
      (centered_bearings_check sw P = true ↔
        (∀ y, y < S → ∀ x, x < S →
          ((∃ comp, cellAt P [y, x] = some comp ∧ comp.name = "bearing") ↔
            specShaftBlock S sw y x)))) ∧
    (∀ y, y < 4 → ∀ x, x < 4 →
      (specShaftBlock 4 2 y x ↔ (y, x) ∈ [(1, 1), (1, 2), (2, 1), (2, 2)])) := by
  constructor
  · intro S sw P hdims hlen hfull
    unfold centered_bearings_check
    rw [hdims]
    simp only [List.getD_cons_zero, List.getD_cons_succ, List.all_eq_true, List.mem_range]
    constructor
    · intro hcheck y hy x hx
      obtain ⟨comp, hcomp⟩ := cell_exists_of_full P S y x hdims hlen hfull hy hx
      have hcell := hcheck y hy x hx
      rw [hcomp] at hcell
      dsimp only at hcell
      rw [← inShaftBlock_iff_spec]
      constructor
      · rintro ⟨comp2, hcomp2, hname⟩
        rw [hcomp] at hcomp2
        cases hcomp2
        by_contra hblock
        rw [Bool.not_eq_true] at hblock
        rw [if_neg (by simp [hblock])] at hcell
        simp [hname] at hcell
      · intro hblock
        rw [if_pos hblock] at hcell
        exact ⟨comp, hcomp, by simpa using hcell⟩
    · intro hiff y hy x hx
      obtain ⟨comp, hcomp⟩ := cell_exists_of_full P S y x hdims hlen hfull hy hx
      rw [hcomp]
      dsimp only
      have h := hiff y hy x hx
      rw [← inShaftBlock_iff_spec] at h
      by_cases hblock : inShaftBlock S sw y x = true
      · rw [if_pos hblock]
        obtain ⟨comp2, hcomp2, hname⟩ := h.mpr hblock
        rw [hcomp] at hcomp2
        cases hcomp2
        simp [hname]
      · rw [if_neg hblock]
        simp only [Bool.not_eq_true']
        by_contra hname
        rw [Bool.not_eq_false, beq_iff_eq] at hname
        exact hblock (h.mp ⟨comp, hcomp, hname⟩)
  · decide

/-- Witness for C7: a concrete fully assigned 4×4 grid whose bearings fill
exactly the centred 2×2 block is accepted by the constraint. -/
theorem centered_bearings_characterization_witness :
    centered_bearings_check 2
      (MultiSequence.mk
        [some ⟨"casing", .base⟩, some ⟨"casing", .base⟩, some ⟨"casing", .base⟩, some ⟨"casing", .base⟩,
         some ⟨"casing", .base⟩, some ⟨"bearing", .base⟩, some ⟨"bearing", .base⟩, some ⟨"casing", .base⟩,
         some ⟨"casing", .base⟩, some ⟨"bearing", .base⟩, some ⟨"bearing", .base⟩, some ⟨"casing", .base⟩,
         some ⟨"casing", .base⟩, some ⟨"casing", .base⟩, some ⟨"casing", .base⟩, some ⟨"casing", .base⟩]
        [4, 4]) = true := by
  have h := (centered_bearings_characterization.1 4 2
    (MultiSequence.mk
      [some ⟨"casing", .base⟩, some ⟨"casing", .base⟩, some ⟨"casing", .base⟩, some ⟨"casing", .base⟩,
       some ⟨"casing", .base⟩, some ⟨"bearing", .base⟩, some ⟨"bearing", .base⟩, some ⟨"casing", .base⟩,
       some ⟨"casing", .base⟩, some ⟨"bearing", .base⟩, some ⟨"bearing", .base⟩, some ⟨"casing", .base⟩,
       some ⟨"casing", .base⟩, some ⟨"casing", .base⟩, some ⟨"casing", .base⟩, some ⟨"casing", .base⟩]
      [4, 4]) rfl rfl (by intro c hc hn; rw [hn] at hc; simp at hc))
  refine h.mpr ?_
  decide

/-! ## Constraint pruning soundness (C3) -/

theorem Rule.strong_ind (P : Rule → Prop) (hb : P .base)
    (hs : ∀ n q e a, P (.simple n q e a))
    (hc : ∀ rs mode, (∀ r ∈ rs, P r) → P (.compound rs mode)) : ∀ r, P r
  | .base => hb
  | .simple n q e a => hs n q e a
  | .compound rs mode =>
      hc rs mode (fun r hr => Rule.strong_ind P hb hs hc r)
termination_by r => sizeOf r
decreasing_by
  simp_wf
  have := List.sizeOf_lt_of_mem hr
  omega

theorem Rule.evalAll_eq_all (rs : List Rule) (ns : List String) :
    Rule.evalAll rs ns = rs.all (fun r => r.eval ns) := by
  induction rs with
  | nil => rfl
  | cons r rs ih => simp [Rule.evalAll, ih]

theorem Rule.evalAny_eq_any (rs : List Rule) (ns : List String) :
    Rule.evalAny rs ns = rs.any (fun r => r.eval ns) := by
  induction rs with
  | nil => rfl
  | cons r rs ih => simp [Rule.evalAny, ih]

/-- Pointwise relation between neighbour-name lists of a layout and of an
extension: every name other than `"incomplete"` is preserved. -/
def NameAgree (ns ns' : List String) : Prop :=
  List.Forall₂ (fun s s' => s ≠ "incomplete" → s' = s) ns ns'

theorem NameAgree.eq_of_no_incomplete {ns ns' : List String} (h : NameAgree ns ns')
    (hni : "incomplete" ∉ ns) : ns' = ns := by
  induction h with
  | nil => rfl
  | cons hr htail ih =>
    rename_i a b as bs
    have ha : a ≠ "incomplete" := fun heq => hni (heq ▸ List.mem_cons_self a as)
    have hni2 : "incomplete" ∉ as := fun hm => hni (List.mem_cons_of_mem a hm)
    rw [hr ha, ih hni2]

/-- A placement rule that rejects a neighbour list also rejects every list
agreeing with it on all non-`"incomplete"` entries: `SimplePlacementRule`
accepts anything containing `"incomplete"`, and compounds propagate. -/
theorem Rule.eval_false_mono (r : Rule) :
    ∀ ns ns', NameAgree ns ns' → r.eval ns = false → r.eval ns' = false := by
  induction r using Rule.strong_ind with
  | hb =>
    intro ns ns' _ hfalse
    simp [Rule.eval] at hfalse
  | hs n q e a =>
    intro ns ns' hrel hfalse
    by_cases hc : ns.contains "incomplete" = true
    · rw [Rule.eval, if_pos hc] at hfalse
      cases hfalse
    · have hni : "incomplete" ∉ ns := fun hm => hc (by simpa using hm)
      rw [hrel.eq_of_no_incomplete hni]
      exact hfalse
  | hc rs mode ih =>
    intro ns ns' hrel hfalse
    cases mode with
    | AND =>
      have hAll : Rule.eval (.compound rs .AND) = Rule.evalAll rs := rfl
      rw [hAll, Rule.evalAll_eq_all] at hfalse ⊢
      rw [List.all_eq_false] at hfalse ⊢
      obtain ⟨r, hr, hrf⟩ := hfalse
      refine ⟨r, hr, ?_⟩
      rw [Bool.not_eq_true] at hrf ⊢
      exact ih r hr ns ns' hrel hrf
    | OR =>
      have hAny : Rule.eval (.compound rs .OR) = Rule.evalAny rs := rfl
      rw [hAny, Rule.evalAny_eq_any] at hfalse ⊢
      rw [Bool.eq_false_iff, Ne, List.any_eq_true] at hfalse ⊢
      intro ⟨r, hr, hrt⟩
      refine hfalse ⟨r, hr, ?_⟩
      by_contra hf
      rw [Bool.not_eq_true] at hf
      rw [ih r hr ns ns' hrel hf] at hrt
      cases hrt

theorem forall₂_getElem? {α β : Type} {R : α → β → Prop} {l : List α} {l' : List β}
    (h : List.Forall₂ R l l') :
    ∀ (j : Nat) (a : α), l[j]? = some a → ∃ b, l'[j]? = some b ∧ R a b := by
  induction h with
  | nil =>
    intro j a ha
    simp at ha
  | cons hr htail ih =>
    intro j a ha
    cases j with
    | zero =>
      simp at ha
      subst ha
      exact ⟨_, by simp, hr⟩
    | succ j =>
      simp only [List.getElem?_cons_succ] at ha ⊢
      exact ih j a ha

theorem ext_cellAt {P Q : Layout} (h : ExtendsLayout P Q) (coords : List Nat)
    (c : Component) (hc : cellAt P coords = some c) : cellAt Q coords = some c := by
  rw [cellAt, getItem] at hc ⊢
  rw [← h.1]
  cases hj : P.seq[tuple_to_int P.dims coords]? with
  | none => rw [hj] at hc; cases hc
  | some o =>
    rw [hj] at hc
    obtain ⟨b, hb, hrb⟩ := forall₂_getElem? h.2 _ o hj
    rw [hb]
    cases o with
    | none => cases hc
    | some c2 =>
      simp at hc
      rw [hrb c (by rw [hc])]
      rfl

theorem forall₂_append {α β : Type} {R : α → β → Prop} {l₁ l₂ : List α} {l₁' l₂' : List β}
    (h1 : List.Forall₂ R l₁ l₁') (h2 : List.Forall₂ R l₂ l₂') :
    List.Forall₂ R (l₁ ++ l₂) (l₁' ++ l₂') := by
  induction h1 with
  | nil => exact h2
  | cons hr _ ih => exact List.Forall₂.cons hr ih

theorem forall₂_flatMap {α β γ : Type} {R : α → β → Prop} (l : List γ)
    (f : γ → List α) (g : γ → List β) (h : ∀ d ∈ l, List.Forall₂ R (f d) (g d)) :
    List.Forall₂ R (l.flatMap f) (l.flatMap g) := by
  induction l with
  | nil => exact List.Forall₂.nil
  | cons d l ih =>
    rw [List.flatMap_cons, List.flatMap_cons]
    exact forall₂_append (h d (List.mem_cons_self d l))
      (ih (fun d2 hd2 => h d2 (List.mem_cons_of_mem d hd2)))

theorem neighborNames_agree {P Q : Layout} (h : ExtendsLayout P Q) (idx : List Nat) :
    NameAgree (neighborNames P idx) (neighborNames Q idx) := by
  unfold neighborNames
  rw [← h.1]
  apply forall₂_flatMap
  intro d _
  dsimp only
  refine List.Forall₂.cons ?_ (List.Forall₂.cons ?_ List.Forall₂.nil)
  · by_cases hcond : idx.getD d 0 < P.dims.getD d 0 - 1
    · rw [if_pos hcond, if_pos hcond]
      cases hcell : cellAt P ((List.range P.dims.length).map
          (fun i => if i = d then idx.getD i 0 + 1 else idx.getD i 0)) with
      | none =>
        intro hne
        exact absurd rfl hne
      | some comp =>
        rw [ext_cellAt h _ comp hcell]
        intro _
        rfl
    · rw [if_neg hcond, if_neg hcond]
      intro _
      rfl
  · by_cases hcond : 0 < idx.getD d 0
    · rw [if_pos hcond, if_pos hcond]
      cases hcell : cellAt P ((List.range P.dims.length).map
          (fun i => if i = d then idx.getD i 0 - 1 else idx.getD i 0)) with
      | none =>
        intro hne
        exact absurd rfl hne
      | some comp =>
        rw [ext_cellAt h _ comp hcell]
        intro _
        rfl
    · rw [if_neg hcond, if_neg hcond]
      intro _
      rfl

theorem countP_extends_le (t : String) {l l' : List (Option Component)}
    (h : List.Forall₂ (fun a b => ∀ c : Component, a = some c → b = some c) l l') :
    l.countP (fun c => match c with
      | some comp => comp.name == t
      | none => false) ≤ l'.countP (fun c => match c with
      | some comp => comp.name == t
      | none => false) := by
  induction h with
  | nil => exact Nat.le_refl _
  | cons hr htail ih =>
    rename_i a b as bs
    rw [List.countP_cons, List.countP_cons]
    cases a with
    | none => simp; omega
    | some comp =>
      rw [hr comp rfl]
      omega

theorem max_quantity_mono (t : String) (mq : Int) {P Q : Layout} (h : ExtendsLayout P Q) :
    max_quantity_check t mq P = false → max_quantity_check t mq Q = false := by
  unfold max_quantity_check
  intro hfalse
  simp only [decide_eq_false_iff_not, not_le] at hfalse ⊢
  have hcount := countP_extends_le t h.2
  omega

theorem symmetry_mono {P Q : Layout} (h : ExtendsLayout P Q) :
    symmetry_check P = false → symmetry_check Q = false := by
  unfold symmetry_check
  intro hfalse
  rw [List.all_eq_false] at hfalse ⊢
  obtain ⟨i, hi, hinner⟩ := hfalse
  rw [Bool.not_eq_true] at hinner
  dsimp only at hinner
  refine ⟨i, by rwa [← h.2.length_eq], ?_⟩
  rw [Bool.not_eq_true, ← h.1]
  dsimp only
  cases hcell : cellAt P (int_to_tuple P.dims i) with
  | none =>
    rw [hcell] at hinner
    cases hinner
  | some comp =>
    rw [hcell] at hinner
    rw [ext_cellAt h _ comp hcell]
    dsimp only at hinner ⊢
    rw [List.all_eq_false] at hinner ⊢
    obtain ⟨d, hd, hinner2⟩ := hinner
    rw [Bool.not_eq_true] at hinner2
    refine ⟨d, hd, ?_⟩
    rw [Bool.not_eq_true]
    cases hcell2 : cellAt P (mirrorCoords P.dims (int_to_tuple P.dims i) d) with
    | none =>
      rw [hcell2] at hinner2
      cases hinner2
    | some comp2 =>
      rw [hcell2] at hinner2
      rw [ext_cellAt h _ comp2 hcell2]
      exact hinner2

theorem placement_rule_mono {P Q : Layout} (h : ExtendsLayout P Q) :
    placement_rule_check P = false → placement_rule_check Q = false := by
  unfold placement_rule_check
  intro hfalse
  rw [List.all_eq_false] at hfalse ⊢
  obtain ⟨i, hi, hinner⟩ := hfalse
  rw [Bool.not_eq_true] at hinner
  dsimp only at hinner
  refine ⟨i, by rwa [← h.2.length_eq], ?_⟩
  rw [Bool.not_eq_true, ← h.1]
  dsimp only
  cases hcell : cellAt P (int_to_tuple P.dims i) with
  | none =>
    rw [hcell] at hinner
    cases hinner
  | some comp =>
    rw [hcell] at hinner
    rw [ext_cellAt h _ comp hcell]
    dsimp only at hinner ⊢
    exact Rule.eval_false_mono comp.placement_rule _ _
      (neighborNames_agree h (int_to_tuple P.dims i)) hinner

theorem centered_bearings_mono (sw : Int) {P Q : Layout} (h : ExtendsLayout P Q) :
    centered_bearings_check sw P = false → centered_bearings_check sw Q = false := by
  unfold centered_bearings_check
  intro hfalse
  rw [← h.1]
  rw [List.all_eq_false] at hfalse ⊢
  obtain ⟨y, hy, hinner⟩ := hfalse
  rw [Bool.not_eq_true] at hinner
  refine ⟨y, hy, ?_⟩
  rw [Bool.not_eq_true]
  rw [List.all_eq_false] at hinner ⊢
  obtain ⟨x, hx, hinner2⟩ := hinner
  rw [Bool.not_eq_true] at hinner2
  refine ⟨x, hx, ?_⟩
  rw [Bool.not_eq_true]
  cases hcell : cellAt P [y, x] with
  | none =>
    rw [hcell] at hinner2
    cases hinner2
  | some comp =>
    rw [hcell] at hinner2
    rw [ext_cellAt h _ comp hcell]
    exact hinner2

/-- Claim C3: each library constraint (MaxQuantity, Symmetry,
PlacementRuleEnforced, CenteredBearings) prunes soundly: once `check` is
false on a partial layout, it stays false on every extension that only
assigns previously unassigned cells. -/
theorem constraint_check_monotone (c : Constraint) (P Q : Layout)
    (h : ExtendsLayout P Q) (hfalse : c.check P = false) : c.check Q = false := by
  cases c with
  | maxQuantity t mq => exact max_quantity_mono t mq h hfalse
  | symmetry => exact symmetry_mono h hfalse
  | placementRule => exact placement_rule_mono h hfalse
  | centeredBearings sw => exact centered_bearings_mono sw h hfalse

/-- Witness for C3: a one-cell layout carrying the target component violates
`MaxQuantity("x", 0)`, and so does its (identical) extension. -/
theorem constraint_check_monotone_witness :
    Constraint.check (.maxQuantity "x" 0)
      (MultiSequence.mk [some ⟨"x", .base⟩] [1]) = false := by
  refine constraint_check_monotone (.maxQuantity "x" 0)
    (MultiSequence.mk [some ⟨"x", .base⟩] [1])
    (MultiSequence.mk [some ⟨"x", .base⟩] [1])
    ⟨rfl, List.Forall₂.cons (fun c hc => hc) List.Forall₂.nil⟩ ?_
  rfl

/-! ## Rotor-blade efficiency (C9) -/

theorem expansion_levels_go (seq : List RotorBlade) (acc : ℝ) (pre : List ℝ) :
    (seq.foldl
      (fun acc blade =>
        (acc.1 * blade.expansion, acc.2 ++ [acc.1 * blade.expansion ^ ((1 : ℝ) / 2)]))
      (acc, pre)).2 =
      pre ++ (List.range seq.length).map
        (fun i => acc * ((seq.take i).map (·.expansion)).prod *
          (seq.getD i ⟨"", 0, 0⟩).expansion ^ ((1 : ℝ) / 2)) := by
  induction seq generalizing acc pre with
  | nil => simp
  | cons b rest ih =>
    rw [List.foldl_cons]
    dsimp only
    rw [ih, List.length_cons, List.range_succ_eq_map, List.map_cons, List.map_map]
    have hhead : acc * b.expansion ^ ((1 : ℝ) / 2) =
        acc * (((b :: rest).take 0).map (·.expansion)).prod *
          ((b :: rest).getD 0 ⟨"", 0, 0⟩).expansion ^ ((1 : ℝ) / 2) := by
      simp
    have htail : (List.range rest.length).map
        (fun i => acc * b.expansion * ((rest.take i).map (·.expansion)).prod *
          (rest.getD i ⟨"", 0, 0⟩).expansion ^ ((1 : ℝ) / 2)) =
        (List.range rest.length).map
          ((fun i => acc * (((b :: rest).take i).map (·.expansion)).prod *
            ((b :: rest).getD i ⟨"", 0, 0⟩).expansion ^ ((1 : ℝ) / 2)) ∘ Nat.succ) := by
      apply List.map_congr_left
      intro i _
      simp only [Function.comp_apply, List.take_succ_cons, List.map_cons, List.prod_cons,
        List.getD_cons_succ]
      ring
    rw [htail, ← hhead]
    simp

theorem expansion_levels_getD (seq : List RotorBlade) (i : Nat) :
    (expansion_levels seq).2.getD i 0 =
      if i < seq.length then
        ((seq.take i).map (·.expansion)).prod * (seq.getD i ⟨"", 0, 0⟩).expansion ^ ((1 : ℝ) / 2)
      else 0 := by
  rw [expansion_levels, expansion_levels_go]
  simp only [List.nil_append]
  by_cases hi : i < seq.length
  · rw [if_pos hi]
    rw [List.getD_eq_getElem _ _ (by simpa using hi)]
    simp
  · rw [if_neg hi]
    rw [List.getD_eq_default]
    simpa using hi

theorem ratio_if_eq (T L : ℝ) :
    (if 0 < T ∧ 0 < L then (if T < L then T / L else L / T) else 0) =
      (if T ≤ 0 ∨ L ≤ 0 then 0 else min T L / max T L) := by
  by_cases h : 0 < T ∧ 0 < L
  · have hnor : ¬(T ≤ 0 ∨ L ≤ 0) := by push_neg; exact h
    rw [if_pos h, if_neg hnor]
    by_cases hTL : T < L
    · rw [if_pos hTL, min_eq_left hTL.le, max_eq_right hTL.le]
    · push_neg at hTL
      rw [if_neg (not_lt.mpr hTL), min_eq_right hTL, max_eq_left hTL]
  · have hor : T ≤ 0 ∨ L ≤ 0 := by
      by_contra hc
      push_neg at hc
      exact h ⟨hc.1, hc.2⟩
    rw [if_neg h, if_pos hor]

theorem foldl_filter_sum {α : Type} (c : α → Prop) [DecidablePred c] (f : α → ℝ)
    (L : List α) (a : ℝ) (n : ℕ) :
    L.foldl (fun acc iv => if c iv then (acc.1 + f iv, acc.2 + 1) else acc) (a, n) =
      (a + ((L.filter (fun iv => c iv)).map f).sum, n + (L.filter (fun iv => c iv)).length) := by
  induction L generalizing a n with
  | nil => simp
  | cons x L ih =>
    by_cases hx : c x
    · rw [List.foldl_cons, if_pos hx, ih, List.filter_cons_of_pos (by simpa using hx)]
      simp only [List.map_cons, List.sum_cons, List.length_cons, Prod.mk.injEq]
      exact ⟨by ring, by omega⟩
    · rw [List.foldl_cons, if_neg hx, ih, List.filter_cons_of_neg (by simpa using hx)]

/-- Claim C9: for every nonempty blade sequence (Python raises `IndexError`
on the empty one) the computed total efficiency is the mean over
positive-efficiency positions of `efficiency_i * r_i`, with
`E_0 = 1`, `E_i = E_{i-1}·expansion_i`, `L_i = E_{i-1}·sqrt(expansion_i)`,
`T_i = opt_expansion^((i+0.5)/N)` and `r_i = min(T_i,L_i)/max(T_i,L_i)`
(`0` if `T_i ≤ 0` or `L_i ≤ 0`); it is `0` when no position has positive
efficiency, and negative-efficiency blades enter the expansion product only. -/
theorem efficiency_matches_claim (seq : List RotorBlade) (opt_expansion : ℝ)
    (hne : seq ≠ []) :
    efficiency seq opt_expansion = some (claimEfficiency seq opt_expansion) := by
  obtain ⟨b, rest, rfl⟩ := List.exists_cons_of_ne_nil hne
  simp only [efficiency]
  rw [foldl_filter_sum (fun iv : ℕ × RotorBlade => 0 < iv.2.efficiency)
    (fun iv => iv.2.efficiency *
      (if 0 < opt_expansion ^ (((iv.1 : ℝ) + 0.5) / ((b :: rest).length : ℝ)) ∧
          0 < (expansion_levels (b :: rest)).2.getD iv.1 0 then
        (if opt_expansion ^ (((iv.1 : ℝ) + 0.5) / ((b :: rest).length : ℝ)) <
            (expansion_levels (b :: rest)).2.getD iv.1 0 then
          opt_expansion ^ (((iv.1 : ℝ) + 0.5) / ((b :: rest).length : ℝ)) /
            (expansion_levels (b :: rest)).2.getD iv.1 0
        else
          (expansion_levels (b :: rest)).2.getD iv.1 0 /
            opt_expansion ^ (((iv.1 : ℝ) + 0.5) / ((b :: rest).length : ℝ)))
      else 0))]
  simp only [Nat.zero_add, Nat.add_zero, zero_add]
  simp only [claimEfficiency]
  congr 1
  have hmapeq : ((b :: rest).enum.filter
        (fun iv => decide (0 < iv.2.efficiency))).map
      (fun iv => iv.2.efficiency *
        (if 0 < opt_expansion ^ (((iv.1 : ℝ) + 0.5) / ((b :: rest).length : ℝ)) ∧
            0 < (expansion_levels (b :: rest)).2.getD iv.1 0 then
          (if opt_expansion ^ (((iv.1 : ℝ) + 0.5) / ((b :: rest).length : ℝ)) <
              (expansion_levels (b :: rest)).2.getD iv.1 0 then
            opt_expansion ^ (((iv.1 : ℝ) + 0.5) / ((b :: rest).length : ℝ)) /
              (expansion_levels (b :: rest)).2.getD iv.1 0
          else
            (expansion_levels (b :: rest)).2.getD iv.1 0 /
              opt_expansion ^ (((iv.1 : ℝ) + 0.5) / ((b :: rest).length : ℝ)))
        else 0)) =
      ((b :: rest).enum.filter (fun iv => decide (0 < iv.2.efficiency))).map
        (fun iv => iv.2.efficiency * claimRatio (b :: rest) opt_expansion iv.1) := by
    apply List.map_congr_left
    intro iv hiv
    have hivmem : iv ∈ (b :: rest).enum := List.mem_of_mem_filter hiv
    obtain ⟨i, blade⟩ := iv
    have hmem := List.mem_enum hivmem
    congr 1
    rw [ratio_if_eq, claimRatio, claimTarget, claimLevel]
    dsimp only
    have hlev : (expansion_levels (b :: rest)).2.getD i 0 =
        (((b :: rest).take i).map (·.expansion)).prod *
          Real.sqrt ((b :: rest).getD i ⟨"", 0, 0⟩).expansion := by
      rw [expansion_levels_getD, if_pos hmem.1, Real.sqrt_eq_rpow]
    rw [hlev]
  by_cases hlen : ((b :: rest).enum.filter (fun iv => decide (0 < iv.2.efficiency))).length = 0
  · rw [if_neg (by omega), if_pos hlen]
  · rw [if_pos (by omega), if_neg hlen, hmapeq]

/-- Witness for C9 at the one-blade sequence STEEL with `opt_expansion = 4`. -/
theorem efficiency_matches_claim_witness :
    efficiency [⟨"steel", 1, 1.4⟩] 4 = some (claimEfficiency [⟨"steel", 1, 1.4⟩] 4) :=
  efficiency_matches_claim [⟨"steel", 1, 1.4⟩] 4 (by simp)

/-! ## Rule/model equivalence failure on axial rules (C1) -/

/-- Claim C1 fails on the code: lowering `Simple("gold", 2, axial=True)` with
neighbour variables fixed to `("gold", wall, "gold", wall)` (ids `0, -1, 0,
-1`) yields a model admitting solutions in which the returned `satisfied`
variable is `1` and solutions in which it is `0`, while direct evaluation is
`false`: the Python `and`/`or` inside `model.Add` drops the axial conjunct
(and on current OR-Tools the call raises), so `satisfied` does not equal
`R(N)` in every solution. -/
theorem axial_to_model_drops_axial :
    ((Rule.toModel (.simple "gold" 2 false true) ["gold"]
        [.var 100, .const (-1), .var 101, .const (-1)] CpModel.empty).map
      (fun vm => (vm.1, vm.2.sat sigC1))) = some (11, true) ∧
    sigC1 11 = 1 ∧ sigC1 100 = 0 ∧ sigC1 101 = 0 ∧
    ((Rule.toModel (.simple "gold" 2 false true) ["gold"]
        [.var 100, .const (-1), .var 101, .const (-1)] CpModel.empty).map
      (fun vm => vm.2.sat sigC0)) = some true ∧
    sigC0 11 = 0 ∧ sigC0 100 = 0 ∧ sigC0 101 = 0 ∧
    Rule.eval (.simple "gold" 2 false true) ["gold", "wall", "gold", "wall"] = false := by
  decide

/-! ## Optimizer enumeration: reversed-helper characterizations -/

theorem advanceR_zeros (m k : Nat) (t : List Nat) :
    advanceR m (List.replicate k 0 ++ t) =
      ((advanceR m t).1, List.replicate k 0 ++ (advanceR m t).2) := by
  induction k with
  | zero => simp
  | succ k ih => simp [List.replicate_succ, advanceR, ih]

theorem advanceR_cons_ne (m v : Nat) (t : List Nat) (hv : v ≠ 0) :
    advanceR m (v :: t) = if v = m then (false, v :: t) else (true, (v + 1) :: t) := by
  simp [advanceR, hv]

theorem advanceR_nil (m : Nat) : advanceR m [] = (false, []) := rfl

theorem prevRowR_zeros (m k : Nat) (t : List Nat) :
    prevRowR m (List.replicate k 0 ++ t) =
      ((prevRowR m t).1, List.replicate k 0 ++ (prevRowR m t).2) := by
  induction k with
  | zero => simp
  | succ k ih => simp [List.replicate_succ, prevRowR, ih]

theorem prevRowR_nil (m : Nat) : prevRowR m [] = (false, []) := rfl

theorem sibSuccR_le_length (m : Nat) :
    ∀ t t' : List Nat, sibSuccR m t = some t' → t'.length ≤ t.length := by
  intro t
  induction t with
  | nil => intro t' h; cases h
  | cons v q ih =>
    intro t' h
    rw [sibSuccR] at h
    by_cases hv : v < m
    · rw [if_pos hv] at h
      cases h
      simp
    · rw [if_neg hv] at h
      have := ih t' h
      simp
      omega

theorem prevRowR_spec (m : Nat) :
    ∀ t : List Nat, (∀ x ∈ t, x ≠ 0 ∧ x ≤ m) → ∀ v, v ≠ 0 →
    prevRowR m (v :: t) =
      (match sibSuccR m t with
        | some t' => (true, List.replicate (t.length + 1 - t'.length) 0 ++ t')
        | none => (false, List.replicate (t.length + 1) 0)) := by
  intro t
  induction t with
  | nil =>
    intro _ v hv
    simp [prevRowR, hv, advanceR_nil, prevRowR_nil, sibSuccR, List.replicate_succ]
  | cons w t' ih =>
    intro hent v hv
    have hw := hent w (List.mem_cons_self w t')
    have hent' : ∀ x ∈ t', x ≠ 0 ∧ x ≤ m := fun x hx => hent x (List.mem_cons_of_mem w hx)
    rw [prevRowR]
    rw [if_pos hv, advanceR_cons_ne m w t' hw.1]
    by_cases hwm : w = m
    · rw [if_pos hwm]
      dsimp only
      have hm0 : m ≠ 0 := fun h0 => hw.1 (by omega)
      have hrec := ih hent' w hw.1
      rw [hrec]
      rw [sibSuccR, if_neg (by omega : ¬ w < m)]
      cases hsib : sibSuccR m t' with
      | some t'' =>
        have hlen := sibSuccR_le_length m t' t'' hsib
        simp only [hsib]
        refine congrArg (Prod.mk true) ?_
        rw [show t'.length + 1 - t''.length = (t'.length - t''.length) + 1 from by omega,
          show (w :: t').length + 1 - t''.length = (t'.length - t''.length) + 2 from by
            simp; omega]
        rw [List.replicate_succ, List.replicate_succ, List.replicate_succ]
        simp
      | none =>
        simp only [hsib]
        refine congrArg (Prod.mk false) ?_
        simp [List.replicate_succ]
    · rw [if_neg hwm]
      dsimp only
      rw [sibSuccR, if_pos (by omega : w < m)]
      simp [List.replicate_succ]

/-! ## Optimizer enumeration: operations on prefix states -/

theorem conc_nil (n : Nat) : conc n [] = List.replicate n 0 := by
  simp [conc]

theorem conc_cons (n x : Nat) (xs : List Nat) :
    conc n (x :: xs) = x :: conc (n - 1) xs := by
  simp only [conc, List.cons_append, List.length_cons]
  refine congrArg (x :: xs ++ ·) ?_
  refine congrArg (fun k => List.replicate k 0) ?_
  omega

theorem conc_reverse (n : Nat) (p : List Nat) :
    (conc n p).reverse = List.replicate (n - p.length) 0 ++ p.reverse := by
  simp [conc, List.reverse_append]

theorem conc_full (n : Nat) (p : List Nat) (h : p.length = n) : conc n p = p := by
  simp [conc, h]

theorem sibSucc_nil (m : Nat) : sibSucc m [] = none := rfl

theorem sibSucc_snoc_lt (m : Nat) (q : List Nat) (v : Nat) (hv : v < m) :
    sibSucc m (q ++ [v]) = some (q ++ [v + 1]) := by
  simp [sibSucc, sibSuccR, hv]

theorem sibSucc_snoc_max (m : Nat) (q : List Nat) :
    sibSucc m (q ++ [m]) = sibSucc m q := by
  simp [sibSucc, sibSuccR]

theorem advance_conc_nil (cfg : OptSeq) :
    advance cfg (conc cfg.length []) = (false, conc cfg.length []) := by
  unfold advance
  rw [conc_reverse]
  simp only [List.length_nil, Nat.sub_zero, List.reverse_nil, List.append_nil]
  rw [show List.replicate cfg.length (0 : Nat) =
    List.replicate cfg.length 0 ++ [] from by simp]
  rw [advanceR_zeros]
  simp [advanceR_nil, conc_nil]

theorem advance_conc_snoc (cfg : OptSeq) (q : List Nat) (v : Nat) (hv : v ≠ 0)
    (hlen : (q ++ [v]).length ≤ cfg.length) :
    advance cfg (conc cfg.length (q ++ [v])) =
      if v = cfg.max_value then (false, conc cfg.length (q ++ [v]))
      else (true, conc cfg.length (q ++ [v + 1])) := by
  unfold advance
  rw [conc_reverse]
  rw [show (q ++ [v]).reverse = v :: q.reverse from by simp]
  rw [advanceR_zeros, advanceR_cons_ne _ _ _ hv]
  by_cases hvm : v = cfg.max_value
  · rw [if_pos hvm, if_pos hvm]
    simp [conc, List.reverse_append]
  · rw [if_neg hvm, if_neg hvm]
    simp only [List.length_append, List.length_cons, List.length_nil] at hlen
    simp [conc, List.reverse_append]

theorem next_row_conc (n : Nat) (p : List Nat) (hne : ∀ x ∈ p, x ≠ 0) :
    next_row (conc n p) =
      if p.length < n then (true, conc n (p ++ [1])) else (false, conc n p) := by
  induction p generalizing n with
  | nil =>
    cases n with
    | zero => simp [conc_nil, next_row]
    | succ n =>
      rw [conc_nil, List.replicate_succ, next_row]
      simp [conc]
  | cons x xs ih =>
    have hx : x ≠ 0 := hne x (List.mem_cons_self x xs)
    have hxs : ∀ y ∈ xs, y ≠ 0 := fun y hy => hne y (List.mem_cons_of_mem x hy)
    rw [conc_cons, next_row, if_neg hx, ih (n - 1) hxs]
    by_cases hlt : xs.length < n - 1
    · have h1 : (x :: xs).length < n := by simp only [List.length_cons]; omega
      rw [if_pos hlt, if_pos h1]
      rw [show (x :: xs) ++ [1] = x :: (xs ++ [1]) from rfl, conc_cons]
    · have h1 : ¬ (x :: xs).length < n := by simp only [List.length_cons]; omega
      rw [if_neg hlt, if_neg h1]

theorem prev_row_conc_nil (cfg : OptSeq) :
    prev_row cfg (conc cfg.length []) = (false, conc cfg.length []) := by
  unfold prev_row
  rw [conc_reverse]
  simp only [List.length_nil, Nat.sub_zero, List.reverse_nil, List.append_nil]
  rw [show List.replicate cfg.length (0 : Nat) =
    List.replicate cfg.length 0 ++ [] from by simp]
  rw [prevRowR_zeros]
  simp [prevRowR_nil, conc_nil]

theorem prev_row_conc_snoc (cfg : OptSeq) (q : List Nat) (v : Nat)
    (hq : ∀ x ∈ q, x ≠ 0 ∧ x ≤ cfg.max_value) (hv : v ≠ 0)
    (hlen : (q ++ [v]).length ≤ cfg.length) :
    prev_row cfg (conc cfg.length (q ++ [v])) =
      (match sibSucc cfg.max_value q with
        | some t => (true, conc cfg.length t)
        | none => (false, conc cfg.length [])) := by
  unfold prev_row
  rw [conc_reverse]
  rw [show (q ++ [v]).reverse = v :: q.reverse from by simp]
  rw [prevRowR_zeros]
  rw [prevRowR_spec cfg.max_value q.reverse
    (fun x hx => hq x (List.mem_reverse.mp hx)) v hv]
  simp only [List.length_append, List.length_cons, List.length_nil] at hlen
  rw [sibSucc]
  cases hsib : sibSuccR cfg.max_value q.reverse with
  | some t' =>
    have hlt := sibSuccR_le_length _ _ _ hsib
    simp only [List.length_reverse] at hlt
    simp only [Option.map_some]
    refine congrArg (Prod.mk true) ?_
    rw [List.reverse_append, List.reverse_append]
    simp only [List.reverse_replicate, List.length_reverse, conc]
    rw [List.append_assoc, ← List.replicate_add]
    refine congrArg (t'.reverse ++ ·) ?_
    refine congrArg (fun k => List.replicate k 0) ?_
    simp only [List.length_reverse, List.length_append, List.length_cons, List.length_nil]
    omega
  | none =>
    simp only [Option.map_none]
    refine congrArg (Prod.mk false) ?_
    rw [List.reverse_append]
    simp only [List.reverse_replicate, conc_nil, List.length_reverse]
    rw [← List.replicate_add]
    refine congrArg (fun k => List.replicate k 0) ?_
    simp only [List.length_append, List.length_cons, List.length_nil]
    omega

theorem advOrPrev_conc (cfg : OptSeq) (p : List Nat)
    (hp : ∀ x ∈ p, x ≠ 0 ∧ x ≤ cfg.max_value) (hlen : p.length ≤ cfg.length) :
    (let a := advance cfg (conc cfg.length p);
      if a.1 then a else prev_row cfg a.2) =
      (match sibSucc cfg.max_value p with
        | some t => (true, conc cfg.length t)
        | none => (false, conc cfg.length [])) := by
  induction p using List.reverseRecOn with
  | nil =>
    rw [sibSucc_nil]
    simp only [advance_conc_nil]
    simp only [Bool.false_eq_true, if_false]
    rw [prev_row_conc_nil]
  | append_singleton q v _ =>
    have hv := hp v (by simp)
    have hq : ∀ x ∈ q, x ≠ 0 ∧ x ≤ cfg.max_value := fun x hx => hp x (by simp [hx])
    rw [advance_conc_snoc cfg q v hv.1 hlen]
    by_cases hvm : v = cfg.max_value
    · rw [if_pos hvm]
      simp only [Bool.false_eq_true, if_false]
      rw [prev_row_conc_snoc cfg q v hq hv.1 hlen]
      subst hvm
      rw [sibSucc_snoc_max]
    · rw [if_neg hvm]
      rw [sibSucc_snoc_lt _ _ _ (by omega : v < cfg.max_value)]
      simp

theorem next_sequence_conc (cfg : OptSeq) (p : List Nat)
    (hp : ∀ x ∈ p, x ≠ 0 ∧ x ≤ cfg.max_value) (hlen : p.length ≤ cfg.length) :
    next_sequence cfg (conc cfg.length p) =
      (match nextAbs cfg p with
        | some q => (true, conc cfg.length q)
        | none => (false, conc cfg.length [])) := by
  unfold next_sequence nextAbs
  by_cases hval : is_valid cfg (conc cfg.length p) = true
  · rw [if_pos hval, if_pos hval]
    rw [next_row_conc cfg.length p (fun x hx => (hp x hx).1)]
    by_cases hlt : p.length < cfg.length
    · rw [if_pos hlt, if_pos hlt]
      rfl
    · rw [if_neg hlt, if_neg hlt]
      exact advOrPrev_conc cfg p hp hlen
  · rw [if_neg hval, if_neg hval]
    exact advOrPrev_conc cfg p hp hlen

/-! ## The pre-order on prefix states -/

theorem lexLt_irrefl (p : List Nat) : lexLt p p = false := by
  induction p with
  | nil => rfl
  | cons x xs ih => simp [lexLt, ih]

theorem lexLt_trans {p q r : List Nat} (h1 : lexLt p q = true)
    (h2 : lexLt q r = true) : lexLt p r = true := by
  induction p generalizing q r with
  | nil =>
    cases q with
    | nil => simp [lexLt] at h1
    | cons b qs =>
      cases r with
      | nil => simp [lexLt] at h2
      | cons c rs => simp [lexLt]
  | cons a ps ih =>
    cases q with
    | nil => simp [lexLt] at h1
    | cons b qs =>
      cases r with
      | nil => simp [lexLt] at h2
      | cons c rs =>
        simp only [lexLt, Bool.or_eq_true, Bool.and_eq_true, beq_iff_eq,
          decide_eq_true_eq] at h1 h2 ⊢
        rcases h1 with h1 | ⟨hab, h1⟩
        · rcases h2 with h2 | ⟨hbc, h2⟩
          · exact Or.inl (lt_trans h1 h2)
          · exact Or.inl (hbc ▸ h1)
        · rcases h2 with h2 | ⟨hbc, h2⟩
          · exact Or.inl (hab ▸ h2)
          · exact Or.inr ⟨hab.trans hbc, ih h1 h2⟩

theorem lexLt_append_right (p s : List Nat) (hs : s ≠ []) :
    lexLt p (p ++ s) = true := by
  induction p with
  | nil =>
    cases s with
    | nil => exact absurd rfl hs
    | cons w ws => simp [lexLt]
  | cons a ps ih => simp [lexLt, ih]

theorem lexLt_middle (p : List Nat) (u w : List Nat) {a b : Nat} (hab : a < b) :
    lexLt (p ++ a :: u) (p ++ b :: w) = true := by
  induction p with
  | nil => simp [lexLt, hab]
  | cons c ps ih => simp [lexLt, ih]

theorem lexLt_succ_child (p : List Nat) :
    ∀ x : List Nat, (∀ v ∈ x, 1 ≤ v) →
    (lexLt p x = true ↔ (x = p ++ [1] ∨ lexLt (p ++ [1]) x = true)) := by
  induction p with
  | nil =>
    intro x hx
    cases x with
    | nil => simp [lexLt]
    | cons w ws =>
      have hw : 1 ≤ w := hx w (List.mem_cons_self w ws)
      constructor
      · intro _
        rcases Nat.lt_or_ge 1 w with hlt | hge
        · exact Or.inr (by simp [lexLt, hlt])
        · have hw1 : w = 1 := le_antisymm hge hw
          subst hw1
          cases ws with
          | nil => exact Or.inl rfl
          | cons z zs =>
            refine Or.inr ?_
            simp [lexLt]
      · intro _
        simp [lexLt]
  | cons a ps ih =>
    intro x hx
    cases x with
    | nil => simp [lexLt]
    | cons w ws =>
      have hws : ∀ v ∈ ws, 1 ≤ v := fun v hv => hx v (List.mem_cons_of_mem w hv)
      simp only [lexLt, List.cons_append, Bool.or_eq_true, Bool.and_eq_true,
        beq_iff_eq, decide_eq_true_eq, List.cons.injEq]
      constructor
      · rintro (hlt | ⟨heq, hrec⟩)
        · exact Or.inr (Or.inl hlt)
        · rcases (ih ws hws).mp hrec with h | h
          · exact Or.inl ⟨heq.symm, h⟩
          · exact Or.inr (Or.inr ⟨heq, h⟩)
      · rintro (⟨hwa, hwse⟩ | (hlt | ⟨heq, hrec⟩))
        · exact Or.inr ⟨hwa.symm, (ih ws hws).mpr (Or.inl hwse)⟩
        · exact Or.inl hlt
        · exact Or.inr ⟨heq, (ih ws hws).mpr (Or.inr hrec)⟩

theorem lexLt_replicate_max (m t : Nat) (x : List Nat) (hx : ∀ v ∈ x, v ≤ m)
    (h : lexLt (List.replicate t m) x = true) :
    ∃ s, x = List.replicate t m ++ s ∧ s ≠ [] := by
  induction t generalizing x with
  | zero =>
    cases x with
    | nil => simp [lexLt] at h
    | cons w ws => exact ⟨w :: ws, by simp, by simp⟩
  | succ t ih =>
    cases x with
    | nil => rw [List.replicate_succ] at h; simp [lexLt] at h
    | cons w ws =>
      rw [List.replicate_succ] at h
      simp only [lexLt, Bool.or_eq_true, Bool.and_eq_true, beq_iff_eq,
        decide_eq_true_eq] at h
      have hwm : w ≤ m := hx w (List.mem_cons_self w ws)
      rcases h with h | ⟨heq, hrec⟩
      · exact absurd h (Nat.not_lt.mpr hwm)
      · obtain ⟨s, hs, hne⟩ := ih ws (fun v hv => hx v (List.mem_cons_of_mem w hv)) hrec
        refine ⟨s, ?_, hne⟩
        rw [List.replicate_succ, List.cons_append, ← heq, hs]

theorem lexLt_sib (m : Nat) (r : List Nat) (v t : Nat) :
    ∀ x : List Nat, (∀ u ∈ x, u ≤ m) →
    lexLt (r ++ v :: List.replicate t m) x = true →
    (∀ s, x ≠ (r ++ v :: List.replicate t m) ++ s) →
    x = r ++ [v + 1] ∨ lexLt (r ++ [v + 1]) x = true := by
  induction r with
  | nil =>
    intro x hxm hlex hnd
    cases x with
    | nil => simp [lexLt] at hlex
    | cons w ws =>
      simp only [List.nil_append, lexLt, Bool.or_eq_true, Bool.and_eq_true,
        beq_iff_eq, decide_eq_true_eq] at hlex
      rcases hlex with hlt | ⟨heq, hrec⟩
      · rcases Nat.lt_or_ge (v + 1) w with h1 | h2
        · refine Or.inr ?_
          simp [lexLt, h1]
        · have hw : w = v + 1 := by omega
          subst hw
          cases ws with
          | nil => exact Or.inl rfl
          | cons z zs =>
            refine Or.inr ?_
            simp [lexLt]
      · exfalso
        obtain ⟨s, hs, hne⟩ := lexLt_replicate_max m t ws
          (fun u hu => hxm u (List.mem_cons_of_mem w hu)) hrec
        refine hnd s ?_
        rw [List.nil_append, List.cons_append, hs, heq]
  | cons a rs ih =>
    intro x hxm hlex hnd
    cases x with
    | nil => simp [lexLt] at hlex
    | cons w ws =>
      simp only [List.cons_append, lexLt, Bool.or_eq_true, Bool.and_eq_true,
        beq_iff_eq, decide_eq_true_eq] at hlex
      rcases hlex with hlt | ⟨heq, hrec⟩
      · refine Or.inr ?_
        simp [lexLt, hlt]
      · have hih := ih ws (fun u hu => hxm u (List.mem_cons_of_mem w hu)) hrec
          (fun s hws => hnd s (by rw [hws, heq]; simp [List.append_assoc]))
        rcases hih with h | h
        · refine Or.inl ?_
          rw [List.cons_append, h, heq]
        · refine Or.inr ?_
          simp [lexLt, heq, h]

/-! ## Decomposing the successor-sibling map -/

theorem sibSuccR_none_eq (m : Nat) (l : List Nat) (hl : ∀ u ∈ l, u ≤ m)
    (h : sibSuccR m l = none) : l = List.replicate l.length m := by
  induction l with
  | nil => rfl
  | cons v q ih =>
    rw [sibSuccR] at h
    by_cases hv : v < m
    · rw [if_pos hv] at h
      exact Option.noConfusion h
    · rw [if_neg hv] at h
      have hvm : v = m := le_antisymm (hl v (List.mem_cons_self v q)) (Nat.le_of_not_lt hv)
      rw [List.length_cons, List.replicate_succ, hvm]
      exact congrArg (m :: ·) (ih (fun u hu => hl u (List.mem_cons_of_mem v hu)) h)

theorem sibSuccR_some_eq (m : Nat) (l : List Nat) (hl : ∀ u ∈ l, u ≤ m) :
    ∀ t', sibSuccR m l = some t' →
    ∃ k v r', l = List.replicate k m ++ v :: r' ∧ v < m ∧ t' = (v + 1) :: r' := by
  induction l with
  | nil => intro t' h; exact Option.noConfusion h
  | cons v q ih =>
    intro t' h
    rw [sibSuccR] at h
    by_cases hv : v < m
    · rw [if_pos hv] at h
      exact ⟨0, v, q, by simp, hv, (Option.some.inj h).symm⟩
    · rw [if_neg hv] at h
      obtain ⟨k, v', r', hl', hv', ht'⟩ :=
        ih (fun u hu => hl u (List.mem_cons_of_mem v hu)) t' h
      have hvm : v = m := le_antisymm (hl v (List.mem_cons_self v q)) (Nat.le_of_not_lt hv)
      refine ⟨k + 1, v', r', ?_, hv', ht'⟩
      rw [List.replicate_succ, List.cons_append, hvm, hl']

theorem sibSucc_none_eq (m : Nat) (p : List Nat) (hp : ∀ u ∈ p, u ≤ m)
    (h : sibSucc m p = none) : p = List.replicate p.length m := by
  rw [sibSucc, Option.map_eq_none'] at h
  have h1 := sibSuccR_none_eq m p.reverse (fun u hu => hp u (List.mem_reverse.mp hu)) h
  have h2 := congrArg List.reverse h1
  rw [List.reverse_reverse, List.reverse_replicate, List.length_reverse] at h2
  exact h2

theorem sibSucc_some_eq (m : Nat) (p : List Nat) (hp : ∀ u ∈ p, u ≤ m)
    (q : List Nat) (h : sibSucc m p = some q) :
    ∃ r v k, p = r ++ v :: List.replicate k m ∧ v < m ∧ q = r ++ [v + 1] := by
  rw [sibSucc] at h
  cases hr : sibSuccR m p.reverse with
  | none =>
    rw [hr] at h
    exact Option.noConfusion h
  | some t' =>
    rw [hr, Option.map_some'] at h
    obtain ⟨k, v, r', hl', hv', ht'⟩ :=
      sibSuccR_some_eq m p.reverse (fun u hu => hp u (List.mem_reverse.mp hu)) t' hr
    refine ⟨r'.reverse, v, k, ?_, hv', ?_⟩
    · have h2 := congrArg List.reverse hl'
      rw [List.reverse_reverse] at h2
      rw [h2]
      simp [List.reverse_append, List.reverse_replicate]
    · rw [← Option.some.inj h, ht']
      simp

/-! ## The pre-order listing of prefix states -/

theorem mem_subtreeList (m : Nat) :
    ∀ (d : Nat) (p x : List Nat), x ∈ subtreeList m d p ↔
      ∃ s, x = p ++ s ∧ s.length ≤ d ∧ ∀ v ∈ s, 1 ≤ v ∧ v ≤ m := by
  intro d
  induction d with
  | zero =>
    intro p x
    simp only [subtreeList, List.mem_singleton]
    constructor
    · rintro rfl
      exact ⟨[], by simp, by simp, by simp⟩
    · rintro ⟨s, hx, hs, _⟩
      have hs0 : s = [] := List.length_eq_zero.mp (Nat.le_zero.mp hs)
      rw [hx, hs0, List.append_nil]
  | succ d ih =>
    intro p x
    rw [subtreeList]
    simp only [List.mem_cons, List.mem_flatten, List.mem_map, List.mem_range]
    constructor
    · rintro (rfl | ⟨l, ⟨w, hw, rfl⟩, hxl⟩)
      · exact ⟨[], by simp, by simp, by simp⟩
      · obtain ⟨s, rfl, hsl, hsv⟩ := (ih (p ++ [w + 1]) x).mp hxl
        refine ⟨(w + 1) :: s, by simp, by simp [Nat.succ_le_succ hsl], ?_⟩
        intro v hv
        rcases List.mem_cons.mp hv with rfl | hv'
        · exact ⟨Nat.succ_le_succ (Nat.zero_le w), Nat.succ_le_of_lt hw⟩
        · exact hsv v hv'
    · rintro ⟨s, rfl, hsl, hsv⟩
      cases s with
      | nil => exact Or.inl (by simp)
      | cons w s' =>
        refine Or.inr ?_
        have hw := hsv w (List.mem_cons_self w s')
        refine ⟨subtreeList m d (p ++ [w - 1 + 1]), ⟨w - 1, by omega, rfl⟩, ?_⟩
        rw [ih]
        have hw1 : w - 1 + 1 = w := Nat.succ_pred_eq_of_pos hw.1
        refine ⟨s', by rw [hw1]; simp, by simpa using hsl, ?_⟩
        intro v hv
        exact hsv v (List.mem_cons_of_mem w hv)

theorem mem_allStates (n m : Nat) (x : List Nat) :
    x ∈ allStates n m ↔ PState n m x := by
  rw [allStates, mem_subtreeList]
  constructor
  · rintro ⟨s, rfl, hl, hv⟩
    exact ⟨by simpa using hl, by simpa using hv⟩
  · rintro ⟨hl, hv⟩
    exact ⟨x, by simp, hl, hv⟩

theorem pairwise_subtreeList (m : Nat) :
    ∀ (d : Nat) (p : List Nat),
    (subtreeList m d p).Pairwise (fun a b => lexLt a b = true) := by
  intro d
  induction d with
  | zero => intro p; simp [subtreeList]
  | succ d ih =>
    intro p
    rw [subtreeList]
    refine List.Pairwise.cons ?_ ?_
    · intro y hy
      rw [List.mem_flatten] at hy
      obtain ⟨l, hl, hyl⟩ := hy
      rw [List.mem_map] at hl
      obtain ⟨w, _, rfl⟩ := hl
      rw [mem_subtreeList] at hyl
      obtain ⟨s, rfl, _, _⟩ := hyl
      rw [List.append_assoc]
      exact lexLt_append_right p ([w + 1] ++ s) (by simp)
    · rw [List.pairwise_flatten]
      refine ⟨?_, ?_⟩
      · intro l hl
        rw [List.mem_map] at hl
        obtain ⟨w, _, rfl⟩ := hl
        exact ih _
      · refine List.Pairwise.map _ ?_ (List.pairwise_lt_range m)
        intro a b hab x hx y hy
        rw [mem_subtreeList] at hx hy
        obtain ⟨s, rfl, _, _⟩ := hx
        obtain ⟨s', rfl, _, _⟩ := hy
        rw [List.append_assoc, List.append_assoc]
        exact lexLt_middle p s s' (by omega)

theorem pairwise_allStates (n m : Nat) :
    (allStates n m).Pairwise (fun a b => lexLt a b = true) :=
  pairwise_subtreeList m n []

/-- Splitting a filter of a strictly pre-ordered list at its least element:
if `q` satisfies `P`, and on the list `P` holds exactly of `q` and of the
elements satisfying `Q` (all of which lie strictly after `q`), then the `P`
filter is `q` followed by the `Q` filter. -/
theorem sorted_filter_cons (L : List (List Nat))
    (hL : L.Pairwise (fun a b => lexLt a b = true))
    (P Q : List Nat → Bool) (q : List Nat) (hq : q ∈ L) (hPq : P q = true)
    (hiff : ∀ x ∈ L, (P x = true ↔ (x = q ∨ Q x = true)))
    (hQlt : ∀ x, Q x = true → lexLt q x = true) :
    L.filter P = q :: L.filter Q := by
  induction L with
  | nil => exact absurd hq (List.not_mem_nil q)
  | cons y L' ih =>
    rw [List.pairwise_cons] at hL
    rcases List.mem_cons.mp hq with rfl | hq'
    · rw [List.filter_cons_of_pos hPq]
      have hQy : Q q = false := by
        cases hQy : Q q with
        | false => rfl
        | true =>
          have := hQlt q hQy
          rw [lexLt_irrefl] at this
          exact Bool.noConfusion this
      rw [List.filter_cons_of_neg (by simp [hQy])]
      refine congrArg (q :: ·) ?_
      apply List.filter_congr
      intro x hx
      have hx_iff := hiff x (List.mem_cons_of_mem q hx)
      have hlt := hL.1 x hx
      cases hPx : P x with
      | true =>
        rcases hx_iff.mp hPx with rfl | hQx
        · rw [lexLt_irrefl] at hlt
          exact Bool.noConfusion hlt
        · rw [hQx]
      | false =>
        cases hQx : Q x with
        | true =>
          rw [← hPx, hx_iff.mpr (Or.inr hQx)]
        | false => rfl
    · have hPy : P y = false := by
        cases hPy : P y with
        | false => rfl
        | true =>
          exfalso
          rcases (hiff y (List.mem_cons_self y L')).mp hPy with rfl | hQy
          · have := hL.1 y hq'
            rw [lexLt_irrefl] at this
            exact Bool.noConfusion this
          · have h1 := hQlt y hQy
            have h2 := hL.1 q hq'
            have h3 := lexLt_trans h1 h2
            rw [lexLt_irrefl] at h3
            exact Bool.noConfusion h3
      have hQy : Q y = false := by
        cases hQy : Q y with
        | false => rfl
        | true =>
          exact absurd ((hiff y (List.mem_cons_self y L')).mpr (Or.inr hQy))
            (by simp [hPy])
      rw [List.filter_cons_of_neg (by simp [hPy]),
        List.filter_cons_of_neg (by simp [hQy])]
      exact ih hL.2 hq' (fun x hx => hiff x (List.mem_cons_of_mem y hx))

/-! ## Reachability transfer -/

theorem reachableB_iff (cfg : OptSeq) (p : List Nat) :
    reachableB cfg p = true ↔
      ∀ k, k < p.length → is_valid cfg (conc cfg.length (p.take k)) = true := by
  rw [reachableB, List.all_eq_true]
  constructor
  · intro h k hk
    exact h k (List.mem_range.mpr hk)
  · intro h k hk
    exact h k (List.mem_range.mp hk)

theorem reachableB_nil (cfg : OptSeq) : reachableB cfg [] = true := rfl

theorem reachableB_append_one (cfg : OptSeq) (p : List Nat)
    (hr : reachableB cfg p = true)
    (hv : is_valid cfg (conc cfg.length p) = true) :
    reachableB cfg (p ++ [1]) = true := by
  rw [reachableB_iff] at hr ⊢
  intro k hk
  rw [List.length_append, List.length_cons, List.length_nil] at hk
  rcases Nat.lt_or_ge k p.length with h | h
  · rw [List.take_append_of_le_length (Nat.le_of_lt h)]
    exact hr k h
  · have hkp : k = p.length := by omega
    subst hkp
    rw [List.take_append_of_le_length (le_refl _), List.take_length]
    exact hv

theorem reachableB_sib (cfg : OptSeq) (r : List Nat) (v w k : Nat)
    (hr : reachableB cfg (r ++ v :: List.replicate k cfg.max_value) = true) :
    reachableB cfg (r ++ [w]) = true := by
  rw [reachableB_iff] at hr ⊢
  intro j hj
  rw [List.length_append, List.length_cons, List.length_nil] at hj
  have hj' : j ≤ r.length := by omega
  rw [List.take_append_of_le_length hj']
  have hlt : j < (r ++ v :: List.replicate k cfg.max_value).length := by
    rw [List.length_append, List.length_cons]
    omega
  have h1 := hr j hlt
  rw [List.take_append_of_le_length hj'] at h1
  exact h1

theorem valid_of_reach_append (cfg : OptSeq) (p s : List Nat) (hs : s ≠ [])
    (hr : reachableB cfg (p ++ s) = true) :
    is_valid cfg (conc cfg.length p) = true := by
  rw [reachableB_iff] at hr
  have hlt : p.length < (p ++ s).length := by
    rw [List.length_append]
    cases s with
    | nil => exact absurd rfl hs
    | cons a s' => simp
  have h1 := hr p.length hlt
  rw [List.take_append_of_le_length (le_refl _), List.take_length] at h1
  exact h1

/-! ## One enumeration step consumes the head of the remaining states -/

theorem nextAbs_none_rem (cfg : OptSeq) (p : List Nat)
    (hp : PState cfg.length cfg.max_value p)
    (h : nextAbs cfg p = none) : remStates cfg p = [] := by
  have hsib : sibSucc cfg.max_value p = none ∧
      (¬ is_valid cfg (conc cfg.length p) = true ∨ cfg.length ≤ p.length) := by
    unfold nextAbs at h
    by_cases hval : is_valid cfg (conc cfg.length p) = true
    · rw [if_pos hval] at h
      by_cases hlt : p.length < cfg.length
      · rw [if_pos hlt] at h
        exact Option.noConfusion h
      · rw [if_neg hlt] at h
        exact ⟨h, Or.inr (Nat.le_of_not_lt hlt)⟩
    · rw [if_neg hval] at h
      exact ⟨h, Or.inl hval⟩
  have hrep := sibSucc_none_eq cfg.max_value p (fun u hu => (hp.2 u hu).2) hsib.1
  unfold remStates
  rw [List.filter_eq_nil_iff]
  intro x hxmem hcontra
  rw [Bool.and_eq_true] at hcontra
  obtain ⟨hrx, hlex⟩ := hcontra
  have hxst := (mem_allStates _ _ x).mp hxmem
  rw [hrep] at hlex
  obtain ⟨s, hxs, hsne⟩ := lexLt_replicate_max cfg.max_value p.length x
    (fun u hu => (hxst.2 u hu).2) hlex
  rw [← hrep] at hxs
  subst hxs
  have hvalp := valid_of_reach_append cfg p s hsne hrx
  have hlen : p.length < cfg.length := by
    have := hxst.1
    rw [List.length_append] at this
    cases s with
    | nil => exact absurd rfl hsne
    | cons a s' =>
      rw [List.length_cons] at this
      omega
  rcases hsib.2 with hbad | hbad
  · exact hbad hvalp
  · omega

theorem nextAbs_sib_rem (cfg : OptSeq) (p q : List Nat)
    (hp : PState cfg.length cfg.max_value p) (hr : reachableB cfg p = true)
    (h : sibSucc cfg.max_value p = some q)
    (hbad : ¬ is_valid cfg (conc cfg.length p) = true ∨ cfg.length ≤ p.length) :
    PState cfg.length cfg.max_value q ∧ reachableB cfg q = true ∧
      remStates cfg p = q :: remStates cfg q := by
  obtain ⟨r, v, k, hpd, hvlt, hqd⟩ :=
    sibSucc_some_eq cfg.max_value p (fun u hu => (hp.2 u hu).2) q h
  have hlenp : p.length = r.length + 1 + k := by
    rw [hpd, List.length_append, List.length_cons, List.length_replicate]
    omega
  have hpq : PState cfg.length cfg.max_value q := by
    subst hqd
    refine ⟨?_, ?_⟩
    · rw [List.length_append, List.length_cons, List.length_nil]
      have h1 := hp.1
      omega
    · intro u hu
      rcases List.mem_append.mp hu with hu' | hu'
      · exact hp.2 u (by rw [hpd]; exact List.mem_append.mpr (Or.inl hu'))
      · rw [List.mem_singleton] at hu'
        subst hu'
        exact ⟨by omega, by omega⟩
  have hrq : reachableB cfg q = true := by
    rw [hqd]
    exact reachableB_sib cfg r v (v + 1) k (by rw [← hpd]; exact hr)
  have hplex : lexLt p q = true := by
    rw [hpd, hqd]
    exact lexLt_middle r (List.replicate k cfg.max_value) [] (Nat.lt_succ_self v)
  refine ⟨hpq, hrq, ?_⟩
  unfold remStates
  apply sorted_filter_cons _ (pairwise_allStates _ _)
  · exact (mem_allStates _ _ _).mpr hpq
  · simp only [Bool.and_eq_true]
    exact ⟨hrq, hplex⟩
  · intro x hxmem
    have hxst := (mem_allStates _ _ x).mp hxmem
    simp only [Bool.and_eq_true]
    constructor
    · rintro ⟨hrx, hlex⟩
      have hnd : ∀ s, x ≠ p ++ s := by
        intro s hxs
        cases s with
        | nil =>
          rw [List.append_nil] at hxs
          subst hxs
          rw [lexLt_irrefl] at hlex
          exact Bool.noConfusion hlex
        | cons a s' =>
          subst hxs
          have hvp := valid_of_reach_append cfg p (a :: s') (by simp) hrx
          have hlen2 : p.length < cfg.length := by
            have h2 := hxst.1
            rw [List.length_append, List.length_cons] at h2
            omega
          rcases hbad with hb | hb
          · exact hb hvp
          · omega
      rw [hpd] at hlex hnd
      rcases lexLt_sib cfg.max_value r v k x (fun u hu => (hxst.2 u hu).2)
          hlex hnd with hc | hc
      · exact Or.inl (by rw [hqd, hc])
      · refine Or.inr ⟨hrx, ?_⟩
        rw [hqd]
        exact hc
    · rintro (rfl | ⟨hrx, hlex⟩)
      · exact ⟨hrq, hplex⟩
      · exact ⟨hrx, lexLt_trans hplex hlex⟩
  · intro x hQx
    simp only [Bool.and_eq_true] at hQx
    exact hQx.2

theorem nextAbs_some_rem (cfg : OptSeq) (hm : 1 ≤ cfg.max_value)
    (p q : List Nat)
    (hp : PState cfg.length cfg.max_value p) (hr : reachableB cfg p = true)
    (h : nextAbs cfg p = some q) :
    PState cfg.length cfg.max_value q ∧ reachableB cfg q = true ∧
      remStates cfg p = q :: remStates cfg q := by
  unfold nextAbs at h
  by_cases hval : is_valid cfg (conc cfg.length p) = true
  case pos =>
    rw [if_pos hval] at h
    by_cases hlt : p.length < cfg.length
    case pos =>
      rw [if_pos hlt] at h
      have hq : q = p ++ [1] := (Option.some.inj h).symm
      subst hq
      have hpq : PState cfg.length cfg.max_value (p ++ [1]) := by
        refine ⟨?_, ?_⟩
        · rw [List.length_append, List.length_cons, List.length_nil]
          omega
        · intro u hu
          rcases List.mem_append.mp hu with hu' | hu'
          · exact hp.2 u hu'
          · rw [List.mem_singleton] at hu'
            subst hu'
            exact ⟨le_refl 1, hm⟩
      have hrq : reachableB cfg (p ++ [1]) = true :=
        reachableB_append_one cfg p hr hval
      refine ⟨hpq, hrq, ?_⟩
      have hplex : lexLt p (p ++ [1]) = true :=
        lexLt_append_right p [1] (by simp)
      unfold remStates
      apply sorted_filter_cons _ (pairwise_allStates _ _)
      · exact (mem_allStates _ _ _).mpr hpq
      · simp only [Bool.and_eq_true]
        exact ⟨hrq, hplex⟩
      · intro x hxmem
        have hxst := (mem_allStates _ _ x).mp hxmem
        simp only [Bool.and_eq_true]
        constructor
        · rintro ⟨hrx, hlex⟩
          rcases (lexLt_succ_child p x (fun v hv => (hxst.2 v hv).1)).mp hlex with
            hcase | hcase
          · exact Or.inl hcase
          · exact Or.inr ⟨hrx, hcase⟩
        · rintro (rfl | ⟨hrx, hlex⟩)
          · exact ⟨hrq, hplex⟩
          · exact ⟨hrx, lexLt_trans hplex hlex⟩
      · intro x hQx
        simp only [Bool.and_eq_true] at hQx
        exact hQx.2
    case neg =>
      rw [if_neg hlt] at h
      exact nextAbs_sib_rem cfg p q hp hr h (Or.inr (Nat.le_of_not_lt hlt))
  case neg =>
    rw [if_neg hval] at h
    exact nextAbs_sib_rem cfg p q hp hr h (Or.inl hval)

/-! ## Walking the pre-order -/

theorem sibSucc_PState (cfg : OptSeq) (p q : List Nat)
    (hp : PState cfg.length cfg.max_value p)
    (h : sibSucc cfg.max_value p = some q) :
    PState cfg.length cfg.max_value q := by
  obtain ⟨r, v, k, hpd, hvlt, hqd⟩ :=
    sibSucc_some_eq cfg.max_value p (fun u hu => (hp.2 u hu).2) q h
  have hlenp : p.length = r.length + 1 + k := by
    rw [hpd, List.length_append, List.length_cons, List.length_replicate]
    omega
  subst hqd
  constructor
  · rw [List.length_append, List.length_cons, List.length_nil]
    have h1 := hp.1
    omega
  · intro u hu
    rcases List.mem_append.mp hu with hu' | hu'
    · exact hp.2 u (by rw [hpd]; exact List.mem_append.mpr (Or.inl hu'))
    · rw [List.mem_singleton] at hu'
      subst hu'
      exact ⟨by omega, by omega⟩

theorem nextAbs_PState (cfg : OptSeq) (hm : 1 ≤ cfg.max_value) (p q : List Nat)
    (hp : PState cfg.length cfg.max_value p) (h : nextAbs cfg p = some q) :
    PState cfg.length cfg.max_value q := by
  unfold nextAbs at h
  by_cases hval : is_valid cfg (conc cfg.length p) = true
  · rw [if_pos hval] at h
    by_cases hlt : p.length < cfg.length
    · rw [if_pos hlt] at h
      have hq : q = p ++ [1] := (Option.some.inj h).symm
      subst hq
      constructor
      · rw [List.length_append, List.length_cons, List.length_nil]
        omega
      · intro u hu
        rcases List.mem_append.mp hu with hu' | hu'
        · exact hp.2 u hu'
        · rw [List.mem_singleton] at hu'
          subst hu'
          exact ⟨le_refl 1, hm⟩
    · rw [if_neg hlt] at h
      exact sibSucc_PState cfg p q hp h
  · rw [if_neg hval] at h
    exact sibSucc_PState cfg p q hp h

theorem chainA_eq_rem (cfg : OptSeq) (hm : 1 ≤ cfg.max_value) :
    ∀ (fuel : Nat) (p : List Nat), PState cfg.length cfg.max_value p →
    reachableB cfg p = true → (remStates cfg p).length ≤ fuel →
    chainA cfg fuel p = remStates cfg p := by
  intro fuel
  induction fuel with
  | zero =>
    intro p _ _ hlen
    simp only [chainA]
    exact (List.length_eq_zero.mp (Nat.le_zero.mp hlen)).symm
  | succ fuel ih =>
    intro p hp hr hlen
    cases hna : nextAbs cfg p with
    | none =>
      simp only [chainA, hna]
      exact (nextAbs_none_rem cfg p hp hna).symm
    | some q =>
      obtain ⟨hpq, hrq, hrem⟩ := nextAbs_some_rem cfg hm p q hp hr hna
      simp only [chainA, hna]
      rw [hrem]
      refine congrArg (q :: ·) ?_
      apply ih q hpq hrq
      rw [hrem, List.length_cons] at hlen
      omega

theorem filter_length_mono {α : Type} (L : List α) (P Q : α → Bool)
    (h : ∀ x ∈ L, Q x = true → P x = true) :
    (L.filter Q).length ≤ (L.filter P).length := by
  induction L with
  | nil => simp
  | cons y L' ih =>
    have ih' := ih (fun x hx => h x (List.mem_cons_of_mem y hx))
    cases hQ : Q y with
    | true =>
      rw [List.filter_cons_of_pos hQ,
        List.filter_cons_of_pos (h y (List.mem_cons_self y L') hQ)]
      simpa using ih'
    | false =>
      rw [List.filter_cons_of_neg (by simp [hQ])]
      cases hP : P y with
      | true =>
        rw [List.filter_cons_of_pos hP]
        simp only [List.length_cons]
        omega
      | false =>
        rw [List.filter_cons_of_neg (by simp [hP])]
        exact ih'

theorem filter_length_lt {α : Type} (L : List α) (P Q : α → Bool)
    (h : ∀ x ∈ L, Q x = true → P x = true) (w : α) (hw : w ∈ L)
    (hPw : P w = true) (hQw : Q w = false) :
    (L.filter Q).length < (L.filter P).length := by
  induction L with
  | nil => exact absurd hw (List.not_mem_nil w)
  | cons y L' ih =>
    have hsub : ∀ x ∈ L', Q x = true → P x = true :=
      fun x hx => h x (List.mem_cons_of_mem y hx)
    rcases List.mem_cons.mp hw with rfl | hw'
    · rw [List.filter_cons_of_pos hPw, List.filter_cons_of_neg (by simp [hQw])]
      simp only [List.length_cons]
      exact Nat.lt_succ_of_le (filter_length_mono L' P Q hsub)
    · have ih' := ih hsub hw'
      cases hQ : Q y with
      | true =>
        rw [List.filter_cons_of_pos hQ,
          List.filter_cons_of_pos (h y (List.mem_cons_self y L') hQ)]
        simpa using ih'
      | false =>
        rw [List.filter_cons_of_neg (by simp [hQ])]
        cases hP : P y with
        | true =>
          rw [List.filter_cons_of_pos hP]
          simp only [List.length_cons]
          omega
        | false =>
          rw [List.filter_cons_of_neg (by simp [hP])]
          exact ih'

theorem chain_conc (cfg : OptSeq) (hm : 1 ≤ cfg.max_value) :
    ∀ (fuel : Nat) (p : List Nat), PState cfg.length cfg.max_value p →
    chain cfg fuel (conc cfg.length p) =
      (chainA cfg fuel p).map (conc cfg.length) := by
  intro fuel
  induction fuel with
  | zero =>
    intro p _
    simp [chain, chainA]
  | succ fuel ih =>
    intro p hp
    have hns := next_sequence_conc cfg p
      (fun x hx => ⟨by have h1 := (hp.2 x hx).1; omega, (hp.2 x hx).2⟩) hp.1
    cases hna : nextAbs cfg p with
    | none =>
      rw [hna] at hns
      simp only [chain, chainA, hna, hns, List.map_nil]
      simp
    | some q =>
      rw [hna] at hns
      have hpq := nextAbs_PState cfg hm p q hp hna
      simp only [chain, chainA, hna, hns, List.map_cons]
      simp only [if_true]
      exact congrArg (conc cfg.length q :: ·) (ih q hpq)

theorem nvs_spec (cfg : OptSeq) :
    ∀ (fuel : Nat) (s : List Nat),
    (∀ v L, (chain cfg fuel s).filter (fun z => is_valid cfg z) = v :: L →
      next_valid_sequence cfg fuel s = (true, v)) ∧
    ((chain cfg fuel s).filter (fun z => is_valid cfg z) = [] →
      (next_valid_sequence cfg fuel s).1 = false) := by
  intro fuel
  induction fuel with
  | zero =>
    intro s
    refine ⟨?_, ?_⟩
    · intro v L h
      simp [chain] at h
    · intro _
      rfl
  | succ fuel ih =>
    intro s
    cases hr : next_sequence cfg s with
    | mk b t =>
      cases b with
      | false =>
        refine ⟨?_, ?_⟩
        · intro v L h
          simp [chain, hr] at h
        · intro _
          simp [next_valid_sequence, hr]
      | true =>
        have hch : chain cfg (fuel + 1) s = t :: chain cfg fuel t := by
          simp [chain, hr]
        by_cases hv : is_valid cfg t = true
        · refine ⟨?_, ?_⟩
          · intro v L h
            rw [hch, List.filter_cons_of_pos hv] at h
            have hvt : v = t := (List.cons.inj h).1.symm
            subst hvt
            simp [next_valid_sequence, hr, hv]
          · intro h
            rw [hch, List.filter_cons_of_pos hv] at h
            exact List.noConfusion h
        · refine ⟨?_, ?_⟩
          · intro v L h
            rw [hch, List.filter_cons_of_neg hv] at h
            have := (ih t).1 v L h
            simp [next_valid_sequence, hr, hv, this]
          · intro h
            rw [hch, List.filter_cons_of_neg hv] at h
            have := (ih t).2 h
            simp [next_valid_sequence, hr, hv, this]

theorem remValid_eq_filter (cfg : OptSeq) (p : List Nat) :
    remValid cfg p = (allStates cfg.length cfg.max_value).filter
      (fun x => is_valid cfg (conc cfg.length x) &&
        (reachableB cfg x && lexLt p x)) := by
  rw [remValid, remStates, List.filter_filter]

theorem mem_remStates (cfg : OptSeq) (p x : List Nat) :
    x ∈ remStates cfg p ↔
      PState cfg.length cfg.max_value x ∧ reachableB cfg x = true ∧
        lexLt p x = true := by
  rw [remStates, List.mem_filter, mem_allStates, Bool.and_eq_true]

theorem mem_remValid (cfg : OptSeq) (p x : List Nat) :
    x ∈ remValid cfg p ↔
      PState cfg.length cfg.max_value x ∧ reachableB cfg x = true ∧
        lexLt p x = true ∧ is_valid cfg (conc cfg.length x) = true := by
  rw [remValid, List.mem_filter, mem_remStates]
  tauto

theorem pairwise_remValid (cfg : OptSeq) (p : List Nat) :
    (remValid cfg p).Pairwise (fun a b => lexLt a b = true) :=
  List.Pairwise.filter _ (List.Pairwise.filter _ (pairwise_allStates _ _))

theorem remValid_cons (cfg : OptSeq) (p w : List Nat) (W' : List (List Nat))
    (hW : remValid cfg p = w :: W') : W' = remValid cfg w := by
  have hmemw : w ∈ remValid cfg p := by rw [hW]; exact List.mem_cons_self w W'
  obtain ⟨hwst, hwr, hwlex, hwval⟩ := (mem_remValid cfg p w).mp hmemw
  have hsplit : remValid cfg p = w :: remValid cfg w := by
    rw [remValid_eq_filter cfg p, remValid_eq_filter cfg w]
    apply sorted_filter_cons _ (pairwise_allStates _ _)
    · exact (mem_allStates _ _ _).mpr hwst
    · simp only [Bool.and_eq_true]
      exact ⟨hwval, hwr, hwlex⟩
    · intro x hxmem
      simp only [Bool.and_eq_true]
      constructor
      · rintro ⟨hxv, hxr, hxlex⟩
        have hxin : x ∈ remValid cfg p :=
          (mem_remValid cfg p x).mpr ⟨(mem_allStates _ _ x).mp hxmem, hxr, hxlex, hxv⟩
        rw [hW] at hxin
        rcases List.mem_cons.mp hxin with rfl | hxin'
        · exact Or.inl rfl
        · have hpw : (remValid cfg p).Pairwise (fun a b => lexLt a b = true) :=
            pairwise_remValid cfg p
          rw [hW, List.pairwise_cons] at hpw
          exact Or.inr ⟨hxv, hxr, hpw.1 x hxin'⟩
      · rintro (rfl | ⟨hxv, hxr, hxlex⟩)
        · exact ⟨hwval, hwr, hwlex⟩
        · exact ⟨hxv, hxr, lexLt_trans hwlex hxlex⟩
    · intro x hQx
      simp only [Bool.and_eq_true] at hQx
      exact hQx.2.2
  rw [hW] at hsplit
  exact (List.cons.inj hsplit).2

theorem remStates_length_lt (cfg : OptSeq) (p w : List Nat)
    (hw : w ∈ remStates cfg p) :
    (remStates cfg w).length < (remStates cfg p).length := by
  obtain ⟨hwst, hwr, hwlex⟩ := (mem_remStates cfg p w).mp hw
  unfold remStates
  apply filter_length_lt _ _ _ ?_ w
  · exact (mem_allStates _ _ _).mpr hwst
  · simp only [Bool.and_eq_true]
    exact ⟨hwr, hwlex⟩
  · rw [Bool.and_eq_false_iff]
    exact Or.inr (lexLt_irrefl w)
  · intro x hxmem hQx
    simp only [Bool.and_eq_true] at hQx ⊢
    exact ⟨hQx.1, lexLt_trans hwlex hQx.2⟩

theorem visited_eq (cfg : OptSeq) (hm : 1 ≤ cfg.max_value) :
    ∀ (iter : Nat) (p : List Nat) (fuel : Nat),
    PState cfg.length cfg.max_value p → reachableB cfg p = true →
    (remStates cfg p).length ≤ fuel → (remStates cfg p).length ≤ iter →
    visited cfg fuel iter (conc cfg.length p) =
      (remValid cfg p).map (conc cfg.length) := by
  intro iter
  induction iter with
  | zero =>
    intro p fuel hp hr hfuel hiter
    have h0 : remStates cfg p = [] := List.length_eq_zero.mp (Nat.le_zero.mp hiter)
    have hrv : remValid cfg p = [] := by
      rw [remValid, h0]
      rfl
    rw [hrv]
    rfl
  | succ iter ih =>
    intro p fuel hp hr hfuel hiter
    have hchain : chain cfg fuel (conc cfg.length p) =
        (remStates cfg p).map (conc cfg.length) := by
      rw [chain_conc cfg hm fuel p hp, chainA_eq_rem cfg hm fuel p hp hr hfuel]
    have hfilter : (chain cfg fuel (conc cfg.length p)).filter
        (fun z => is_valid cfg z) = (remValid cfg p).map (conc cfg.length) := by
      rw [hchain, List.filter_map]
      rfl
    cases hW : remValid cfg p with
    | nil =>
      have hnvs := (nvs_spec cfg fuel (conc cfg.length p)).2
        (by rw [hfilter, hW]; rfl)
      cases hnv : next_valid_sequence cfg fuel (conc cfg.length p) with
      | mk b t =>
        rw [hnv] at hnvs
        simp only at hnvs
        subst hnvs
        simp [visited, hnv]
    | cons w W' =>
      have hnvs := (nvs_spec cfg fuel (conc cfg.length p)).1
        (conc cfg.length w) (W'.map (conc cfg.length))
        (by rw [hfilter, hW]; rfl)
      have hmemw : w ∈ remValid cfg p := by
        rw [hW]
        exact List.mem_cons_self w W'
      obtain ⟨hwst, hwr, hwlex, hwval⟩ := (mem_remValid cfg p w).mp hmemw
      have hmemw' : w ∈ remStates cfg p :=
        (mem_remStates cfg p w).mpr ⟨hwst, hwr, hwlex⟩
      have hlt := remStates_length_lt cfg p w hmemw'
      have hW' : W' = remValid cfg w := remValid_cons cfg p w W' hW
      simp only [visited, hnvs, List.map_cons]
      simp only [if_true]
      refine congrArg (conc cfg.length w :: ·) ?_
      rw [hW']
      exact ih w fuel hwst hwr (by omega) (by omega)

/-! ## Complete sequences among the prefix states -/

theorem is_complete_conc (n : Nat) (x : List Nat) (hx : ∀ v ∈ x, 1 ≤ v)
    (hlen : x.length ≤ n) :
    is_complete (conc n x) = (x.length == n) := by
  rcases Nat.eq_or_lt_of_le hlen with heq | hlt
  · rw [conc_full n x heq, heq, beq_self_eq_true]
    rw [is_complete, List.all_eq_true]
    intro v hv
    have h2 := hx v hv
    rw [Bool.not_eq_true', beq_eq_false_iff_ne]
    omega
  · have h2 : (x.length == n) = false := by
      rw [beq_eq_false_iff_ne]
      omega
    have hk : n - x.length = (n - x.length - 1) + 1 := by omega
    rw [h2, is_complete, conc, hk, List.replicate_succ]
    simp

theorem subtreeList_full (m : Nat) :
    ∀ (d : Nat) (p : List Nat),
    (subtreeList m d p).filter (fun x => x.length == p.length + d) =
      (allTuples m d).map (p ++ ·) := by
  intro d
  induction d with
  | zero =>
    intro p
    simp [subtreeList, allTuples]
  | succ d ih =>
    intro p
    rw [subtreeList]
    rw [List.filter_cons_of_neg (by simp)]
    rw [List.filter_flatten]
    simp only [List.map_map]
    have hchild : ∀ w : Nat,
        (List.filter (fun x => x.length == p.length + (d + 1)) ∘
          fun v => subtreeList m d (p ++ [v + 1])) w =
        (allTuples m d).map ((p ++ [w + 1]) ++ ·) := by
      intro w
      simp only [Function.comp_apply]
      have harith : p.length + (d + 1) = (p ++ [w + 1]).length + d := by
        simp
        omega
      rw [List.filter_congr (fun x _ => by rw [harith]), ih (p ++ [w + 1])]
    rw [List.map_congr_left (fun w _ => hchild w)]
    rw [allTuples, List.flatMap_def, List.map_flatten, List.map_map]
    refine congrArg List.flatten ?_
    apply List.map_congr_left
    intro w _
    simp only [Function.comp_apply, List.map_map]
    apply List.map_congr_left
    intro t _
    simp

theorem allStates_full (n m : Nat) :
    (allStates n m).filter (fun x => x.length == n) = allTuples m n := by
  have h := subtreeList_full m n []
  rw [allStates]
  have hcong : ∀ x ∈ subtreeList m n [],
      (x.length == n) = (x.length == List.length ([] : List Nat) + n) := by
    intro x _
    simp
  rw [List.filter_congr hcong, h]
  simp

theorem pairwise_allTuples (n m : Nat) :
    (allTuples m n).Pairwise (fun a b => lexLt a b = true) := by
  rw [← allStates_full n m]
  exact List.Pairwise.filter _ (pairwise_allStates n m)

/-! ## Monotone constraints make every valid complete sequence reachable -/

theorem reachable_of_valid_full (cfg : OptSeq)
    (hmono : ∀ c ∈ cfg.constraints, MonotoneConstraint c)
    (x : List Nat) (hlen : x.length = cfg.length)
    (hv : is_valid cfg x = true) : reachableB cfg x = true := by
  rw [reachableB_iff]
  intro k hk
  by_contra hcon
  rw [Bool.not_eq_true, is_valid, List.all_eq_false] at hcon
  obtain ⟨c, hc, hcf⟩ := hcon
  rw [Bool.not_eq_true] at hcf
  have hext : ExtendsSeq (conc cfg.length (x.take k)) x := by
    constructor
    · rw [conc, List.length_append, List.length_replicate, List.length_take]
      omega
    · intro i hilt hne
      rw [conc, List.length_append, List.length_replicate, List.length_take] at hilt
      by_cases hik : i < k
      · rw [conc, List.getD_append _ _ _ i
          (by rw [List.length_take]; omega)]
        rw [List.getD_eq_getElem?_getD, List.getD_eq_getElem?_getD,
          List.getElem?_take, if_pos hik]
      · exfalso
        apply hne
        rw [conc, List.getD_append_right _ _ _ i
          (by rw [List.length_take]; omega)]
        rw [List.getD_eq_getElem?_getD, List.getElem?_replicate]
        split
        · rfl
        · rfl
  have hxf := hmono c hc _ x hext hcf
  rw [is_valid, List.all_eq_true] at hv
  have hxt := hv c hc
  rw [hxf] at hxt
  exact Bool.noConfusion hxt

theorem initSeq_conc (cfg : OptSeq) : initSeq cfg = conc cfg.length [] := by
  rw [initSeq, conc_nil]

theorem length_of_mem_allTuples (m : Nat) :
    ∀ (n : Nat) (t : List Nat), t ∈ allTuples m n → t.length = n := by
  intro n
  induction n with
  | zero =>
    intro t ht
    simp only [allTuples, List.mem_singleton] at ht
    rw [ht]
    rfl
  | succ n ih =>
    intro t ht
    rw [allTuples, List.mem_flatMap] at ht
    obtain ⟨v, hv, ht'⟩ := ht
    rw [List.mem_map] at ht'
    obtain ⟨t', ht'', rfl⟩ := ht'
    rw [List.length_cons, ih t' ht'']

/-- **C2** (amended): under monotone constraints, `max_value ≥ 1`,
`length ≥ 1` and enough fuel/iterations, the complete states among the
states visited by repeated `next_valid_sequence` calls from the all-zero
state are exactly the constraint-satisfying tuples of
`(1..max_value)^length`, listed in lexicographic order without
repetition. -/
theorem enumeration_lex_complete (cfg : OptSeq)
    (hm : 1 ≤ cfg.max_value) (hn : 1 ≤ cfg.length)
    (hmono : ∀ c ∈ cfg.constraints, MonotoneConstraint c)
    (fuel iter : Nat)
    (hfuel : (allStates cfg.length cfg.max_value).length ≤ fuel)
    (hiter : (allStates cfg.length cfg.max_value).length ≤ iter) :
    (visited cfg fuel iter (initSeq cfg)).filter is_complete =
      (allTuples cfg.max_value cfg.length).filter (fun t => is_valid cfg t) ∧
    ((visited cfg fuel iter (initSeq cfg)).filter is_complete).Pairwise
      (fun a b => lexLt a b = true) := by
  have hple : (remStates cfg []).length ≤
      (allStates cfg.length cfg.max_value).length :=
    List.length_filter_le _ _
  have hpn : PState cfg.length cfg.max_value [] := ⟨Nat.zero_le _, by simp⟩
  have hvis : visited cfg fuel iter (initSeq cfg) =
      (remValid cfg []).map (conc cfg.length) := by
    rw [initSeq_conc]
    exact visited_eq cfg hm iter [] fuel hpn (reachableB_nil cfg)
      (le_trans hple hfuel) (le_trans hple hiter)
  have hcong : ∀ x ∈ allStates cfg.length cfg.max_value,
      ((is_complete ∘ conc cfg.length) x &&
        (is_valid cfg (conc cfg.length x) &&
          (reachableB cfg x && lexLt [] x))) =
      (is_valid cfg x && (x.length == cfg.length)) := by
    intro x hxmem
    obtain ⟨hxlen, hxv⟩ := (mem_allStates _ _ x).mp hxmem
    simp only [Function.comp_apply]
    rw [is_complete_conc cfg.length x (fun v hv => (hxv v hv).1) hxlen]
    by_cases hfull : x.length = cfg.length
    · rw [hfull, beq_self_eq_true, Bool.true_and, Bool.and_true]
      rw [conc_full _ _ hfull]
      by_cases hvx : is_valid cfg x = true
      · rw [hvx, Bool.true_and]
        rw [reachable_of_valid_full cfg hmono x hfull hvx, Bool.true_and]
        cases x with
        | nil =>
          simp only [List.length_nil] at hfull
          omega
        | cons a xs => rfl
      · rw [Bool.not_eq_true] at hvx
        rw [hvx]
        simp
    · have hbe : (x.length == cfg.length) = false := by
        rw [beq_eq_false_iff_ne]
        exact hfull
      rw [hbe]
      simp
  have hmain : (visited cfg fuel iter (initSeq cfg)).filter is_complete =
      (allTuples cfg.max_value cfg.length).filter (fun t => is_valid cfg t) := by
    rw [hvis, List.filter_map]
    rw [remValid_eq_filter, List.filter_filter]
    rw [List.filter_congr hcong]
    rw [← List.filter_filter, allStates_full]
    have hid : ∀ t ∈ (allTuples cfg.max_value cfg.length).filter
        (fun x => is_valid cfg x), conc cfg.length t = t := by
      intro t ht
      have htmem := (List.mem_filter.mp ht).1
      exact conc_full _ _ (length_of_mem_allTuples _ _ t htmem)
    rw [List.map_congr_left hid]
    simp
  exact ⟨hmain, by
    rw [hmain]
    exact List.Pairwise.filter _ (pairwise_allTuples cfg.length cfg.max_value)⟩

/-- **C2** (counterexample to the unamended claim): with the non-monotone
constraint "cell 0 is already 1", the valid complete sequence `[1]` exists
but the enumeration visits nothing, because the all-zero start state
already violates the constraint and `advance`/`prev_row` fail on it. -/
theorem enumeration_counterexample :
    is_valid cfgSkip [1] = true ∧ is_complete [1] = true ∧
    [1] ∈ (allTuples cfgSkip.max_value cfgSkip.length).filter
      (fun t => is_valid cfgSkip t) ∧
    visited cfgSkip 10 10 (initSeq cfgSkip) = [] := by
  refine ⟨by decide, by decide, by decide, by decide⟩

theorem enumeration_lex_complete_witness :
    (visited cfgFree 13 13 (initSeq cfgFree)).filter is_complete =
      (allTuples cfgFree.max_value cfgFree.length).filter
        (fun t => is_valid cfgFree t) :=
  (enumeration_lex_complete cfgFree (by decide) (by decide)
    (fun c hc => absurd hc (List.not_mem_nil c)) 13 13
    (by decide) (by decide)).1

/-! ## The prefix-form invariant of the optimizer state (C10) -/

theorem advance_pf (cfg : OptSeq) (p : List Nat)
    (hp : PState cfg.length cfg.max_value p) :
    PrefixForm cfg (advance cfg (conc cfg.length p)).2 := by
  induction p using List.reverseRecOn with
  | nil =>
    rw [advance_conc_nil]
    exact ⟨[], ⟨Nat.zero_le _, by simp⟩, rfl⟩
  | append_singleton q v _ =>
    have hv := hp.2 v (by simp)
    have hlen : (q ++ [v]).length ≤ cfg.length := hp.1
    rw [advance_conc_snoc cfg q v (by omega) hlen]
    by_cases hvm : v = cfg.max_value
    · rw [if_pos hvm]
      exact ⟨q ++ [v], hp, rfl⟩
    · rw [if_neg hvm]
      refine ⟨q ++ [v + 1], ⟨?_, ?_⟩, rfl⟩
      · rw [List.length_append] at hlen ⊢
        simpa using hlen
      · intro u hu
        rcases List.mem_append.mp hu with hu' | hu'
        · exact hp.2 u (List.mem_append.mpr (Or.inl hu'))
        · rw [List.mem_singleton] at hu'
          subst hu'
          have h2 := hv.2
          exact ⟨by omega, by omega⟩

theorem next_row_pf (cfg : OptSeq) (hm : 1 ≤ cfg.max_value) (p : List Nat)
    (hp : PState cfg.length cfg.max_value p) :
    PrefixForm cfg (next_row (conc cfg.length p)).2 := by
  rw [next_row_conc cfg.length p
    (fun x hx => by have h1 := (hp.2 x hx).1; omega)]
  by_cases hlt : p.length < cfg.length
  · rw [if_pos hlt]
    refine ⟨p ++ [1], ⟨?_, ?_⟩, rfl⟩
    · rw [List.length_append, List.length_cons, List.length_nil]
      omega
    · intro u hu
      rcases List.mem_append.mp hu with hu' | hu'
      · exact hp.2 u hu'
      · rw [List.mem_singleton] at hu'
        subst hu'
        exact ⟨le_refl 1, hm⟩
  · rw [if_neg hlt]
    exact ⟨p, hp, rfl⟩

theorem prev_row_pf (cfg : OptSeq) (p : List Nat)
    (hp : PState cfg.length cfg.max_value p) :
    PrefixForm cfg (prev_row cfg (conc cfg.length p)).2 := by
  induction p using List.reverseRecOn with
  | nil =>
    rw [prev_row_conc_nil]
    exact ⟨[], ⟨Nat.zero_le _, by simp⟩, rfl⟩
  | append_singleton q v _ =>
    have hv := hp.2 v (by simp)
    have hq : ∀ x ∈ q, x ≠ 0 ∧ x ≤ cfg.max_value := by
      intro x hx
      have h2 := hp.2 x (List.mem_append.mpr (Or.inl hx))
      exact ⟨by omega, h2.2⟩
    rw [prev_row_conc_snoc cfg q v hq (by omega) hp.1]
    cases hsib : sibSucc cfg.max_value q with
    | none => exact ⟨[], ⟨Nat.zero_le _, by simp⟩, rfl⟩
    | some t =>
      have hqstate : PState cfg.length cfg.max_value q := by
        refine ⟨?_, fun u hu => hp.2 u (List.mem_append.mpr (Or.inl hu))⟩
        have h2 := hp.1
        rw [List.length_append] at h2
        omega
      exact ⟨t, sibSucc_PState cfg q t hqstate hsib, rfl⟩

theorem next_sequence_pf (cfg : OptSeq) (hm : 1 ≤ cfg.max_value)
    (p : List Nat) (hp : PState cfg.length cfg.max_value p) :
    PrefixForm cfg (next_sequence cfg (conc cfg.length p)).2 := by
  rw [next_sequence_conc cfg p
    (fun x hx => ⟨by have h1 := (hp.2 x hx).1; omega, (hp.2 x hx).2⟩) hp.1]
  cases hna : nextAbs cfg p with
  | none => exact ⟨[], ⟨Nat.zero_le _, by simp⟩, rfl⟩
  | some t => exact ⟨t, nextAbs_PState cfg hm p t hp hna, rfl⟩

theorem next_valid_sequence_pf (cfg : OptSeq) (hm : 1 ≤ cfg.max_value) :
    ∀ (fuel : Nat) (s : List Nat), PrefixForm cfg s →
    PrefixForm cfg (next_valid_sequence cfg fuel s).2 := by
  intro fuel
  induction fuel with
  | zero =>
    intro s hs
    exact hs
  | succ fuel ih =>
    intro s hs
    obtain ⟨p, hp, rfl⟩ := hs
    have hns := next_sequence_pf cfg hm p hp
    cases hr : next_sequence cfg (conc cfg.length p) with
    | mk b t =>
      rw [hr] at hns
      simp only [next_valid_sequence, hr]
      cases b with
      | false =>
        simp only [Bool.not_false, if_true]
        exact hns
      | true =>
        simp only [Bool.not_true, Bool.false_eq_true, if_false]
        by_cases hv : is_valid cfg t = true
        · rw [if_pos hv]
          exact hns
        · rw [if_neg hv]
          exact ih t hns

theorem applyOp_pf (cfg : OptSeq) (hm : 1 ≤ cfg.max_value) (op : SeqOp)
    (s : List Nat) (hs : PrefixForm cfg s) :
    PrefixForm cfg (applyOp cfg op s) := by
  cases op with
  | adv =>
    obtain ⟨p, hp, rfl⟩ := hs
    exact advance_pf cfg p hp
  | nrow =>
    obtain ⟨p, hp, rfl⟩ := hs
    exact next_row_pf cfg hm p hp
  | prow =>
    obtain ⟨p, hp, rfl⟩ := hs
    exact prev_row_pf cfg p hp
  | nseq =>
    obtain ⟨p, hp, rfl⟩ := hs
    exact next_sequence_pf cfg hm p hp
  | nvs fuel =>
    exact next_valid_sequence_pf cfg hm fuel s hs

theorem applyOps_pf (cfg : OptSeq) (hm : 1 ≤ cfg.max_value) :
    ∀ (ops : List SeqOp) (s : List Nat), PrefixForm cfg s →
    PrefixForm cfg (applyOps cfg ops s) := by
  intro ops
  induction ops with
  | nil =>
    intro s hs
    exact hs
  | cons op ops ih =>
    intro s hs
    exact ih (applyOp cfg op s) (applyOp_pf cfg hm op s hs)

/-- **C10** (amended): with `max_value ≥ 1`, after any finite sequence of
`advance`, `next_row`, `prev_row`, `next_sequence` or
`next_valid_sequence` calls starting from the all-zero sequence, the
assigned cells form a prefix: `k ≤ length` entries in `[1, max_value]`
followed by zeros.  (With `max_value = 0` this fails, see the
counterexample.) -/
theorem prefix_invariant (cfg : OptSeq) (hm : 1 ≤ cfg.max_value)
    (ops : List SeqOp) :
    PrefixFormIdx cfg (applyOps cfg ops (initSeq cfg)) := by
  have h := applyOps_pf cfg hm ops (initSeq cfg)
    ⟨[], ⟨Nat.zero_le _, by simp⟩, initSeq_conc cfg⟩
  obtain ⟨p, hp, heq⟩ := h
  rw [heq]
  refine ⟨p.length, hp.1, ?_, ?_⟩
  · intro i hi
    rw [conc, List.getD_append _ _ _ i hi, List.getD_eq_getElem p 0 hi]
    exact hp.2 _ (List.getElem_mem hi)
  · intro i hki hin
    rw [conc, List.getD_append_right _ _ _ i hki]
    rw [List.getD_eq_getElem?_getD, List.getElem?_replicate]
    split
    · rfl
    · rfl

/-- **C10** (counterexample to the unamended claim): with `max_value = 0`,
a single `next_row` call on the all-zero one-cell sequence writes the
entry `1`, which lies outside the claimed range `[1, max_value]`, so no
split index `k` witnesses the invariant. -/
theorem prefix_invariant_counterexample :
    applyOps cfgZero [SeqOp.nrow] (initSeq cfgZero) = [1] ∧
    ¬ PrefixFormIdx cfgZero [1] := by
  refine ⟨by decide, ?_⟩
  rintro ⟨k, hk, h1, h2⟩
  have hk1 : cfgZero.length = 1 := rfl
  rw [hk1] at hk
  rcases Nat.le_one_iff_eq_zero_or_eq_one.mp hk with rfl | rfl
  · have h3 := h2 0 (le_refl 0) (by rw [hk1]; omega)
    exact absurd h3 (by decide)
  · have h3 := (h1 0 (by omega)).2
    exact absurd h3 (by decide)

theorem prefix_invariant_witness :
    PrefixFormIdx cfgFree
      (applyOps cfgFree [SeqOp.nrow, SeqOp.adv, SeqOp.nseq, SeqOp.nvs 4]
        (initSeq cfgFree)) :=
  prefix_invariant cfgFree (by decide)
    [SeqOp.nrow, SeqOp.adv, SeqOp.nseq, SeqOp.nvs 4]

/-! ## Lengths and validity along the enumeration (C8 groundwork) -/

theorem advanceR_length (m : Nat) :
    ∀ l : List Nat, (advanceR m l).2.length = l.length := by
  intro l
  induction l with
  | nil => rfl
  | cons x xs ih =>
    rw [advanceR]
    split
    · split
      · rfl
      · rfl
    · simp [ih]

theorem prevRowR_length (m : Nat) :
    ∀ l : List Nat, (prevRowR m l).2.length = l.length := by
  intro l
  induction l with
  | nil => rfl
  | cons x xs ih =>
    rw [prevRowR]
    split
    · show (if (advanceR m xs).1 = true then (true, 0 :: (advanceR m xs).2)
        else ((prevRowR m xs).1, 0 :: (prevRowR m xs).2)).2.length =
          (x :: xs).length
      split
      · simp [advanceR_length]
      · simp [ih]
    · simp [ih]

theorem next_row_length : ∀ l : List Nat, (next_row l).2.length = l.length := by
  intro l
  induction l with
  | nil => rfl
  | cons x xs ih =>
    rw [next_row]
    split
    · rfl
    · simp [ih]

theorem advance_length (cfg : OptSeq) (s : List Nat) :
    (advance cfg s).2.length = s.length := by
  rw [advance]
  simp [advanceR_length]

theorem prev_row_length (cfg : OptSeq) (s : List Nat) :
    (prev_row cfg s).2.length = s.length := by
  rw [prev_row]
  simp [prevRowR_length]

theorem next_sequence_length (cfg : OptSeq) (s : List Nat) :
    (next_sequence cfg s).2.length = s.length := by
  simp only [next_sequence]
  split
  · split
    · simp [next_row_length]
    · split
      · simp [advance_length, next_row_length]
      · simp [prev_row_length, advance_length, next_row_length]
  · split
    · simp [advance_length]
    · simp [prev_row_length, advance_length]

theorem next_valid_sequence_length (cfg : OptSeq) :
    ∀ (fuel : Nat) (s : List Nat),
    (next_valid_sequence cfg fuel s).2.length = s.length := by
  intro fuel
  induction fuel with
  | zero => intro s; rfl
  | succ fuel ih =>
    intro s
    simp only [next_valid_sequence]
    split
    · simp [next_sequence_length]
    · split
      · simp [next_sequence_length]
      · rw [ih]
        simp [next_sequence_length]

theorem mem_visited_length (cfg : OptSeq) (fuel : Nat) :
    ∀ (iter : Nat) (s z : List Nat), z ∈ visited cfg fuel iter s →
    z.length = s.length := by
  intro iter
  induction iter with
  | zero =>
    intro s z hz
    simp [visited] at hz
  | succ iter ih =>
    intro s z hz
    simp only [visited] at hz
    split at hz
    · rcases List.mem_cons.mp hz with rfl | hz'
      · exact next_valid_sequence_length cfg fuel s
      · rw [ih _ z hz', next_valid_sequence_length]
    · simp at hz

theorem nvs_valid (cfg : OptSeq) :
    ∀ (fuel : Nat) (s t : List Nat),
    next_valid_sequence cfg fuel s = (true, t) → is_valid cfg t = true := by
  intro fuel
  induction fuel with
  | zero =>
    intro s t h
    exact absurd (congrArg Prod.fst h) (by simp [next_valid_sequence])
  | succ fuel ih =>
    intro s t h
    simp only [next_valid_sequence] at h
    by_cases hb : (next_sequence cfg s).1 = true
    · rw [if_neg (by simp [hb])] at h
      by_cases hv : is_valid cfg (next_sequence cfg s).2 = true
      · rw [if_pos hv] at h
        have h2 := (Prod.mk.inj h).2
        rw [← h2]
        exact hv
      · rw [if_neg hv] at h
        exact ih _ t h
    · rw [Bool.not_eq_true] at hb
      rw [if_pos (by rw [hb]; rfl)] at h
      exact absurd (Prod.mk.inj h).1 (by simp)

theorem mem_visited_valid (cfg : OptSeq) (fuel : Nat) :
    ∀ (iter : Nat) (s z : List Nat), z ∈ visited cfg fuel iter s →
    is_valid cfg z = true := by
  intro iter
  induction iter with
  | zero =>
    intro s z hz
    simp [visited] at hz
  | succ iter ih =>
    intro s z hz
    simp only [visited] at hz
    by_cases hb : (next_valid_sequence cfg fuel s).1 = true
    · rw [if_pos hb] at hz
      rcases List.mem_cons.mp hz with rfl | hz'
      · apply nvs_valid cfg fuel s
        rw [← hb]
      · exact ih _ z hz'
    · rw [if_neg hb] at hz
      simp at hz

theorem visited_nil_start (cfg : OptSeq) (fuel : Nat) :
    ∀ iter, visited cfg fuel iter [] = [] := by
  intro iter
  cases iter with
  | zero => rfl
  | succ iter =>
    simp only [visited]
    have hnvs : (next_valid_sequence cfg fuel []).1 = false := by
      cases fuel with
      | zero => rfl
      | succ fuel =>
        have hns : next_sequence cfg [] = (false, []) := by
          rw [next_sequence]
          by_cases hv : is_valid cfg [] = true
          · rw [if_pos hv]
            rfl
          · rw [if_neg hv]
            rfl
        simp [next_valid_sequence, hns]
    rw [if_neg (by simp [hnvs])]

theorem nil_not_mem_visited (cfg : OptSeq) (fuel iter : Nat) (s : List Nat) :
    [] ∉ visited cfg fuel iter s := by
  intro hmem
  have hlen := mem_visited_length cfg fuel iter s [] hmem
  have hs : s = [] := by
    have h0 : s.length = 0 := by
      rw [← hlen]
      rfl
    exact List.length_eq_zero.mp h0
  rw [hs, visited_nil_start] at hmem
  exact absurd hmem (List.not_mem_nil [])

/-! ## The best-so-far fold of `optimize` -/

theorem bestFold_cons (cfg : OptSeq) (v : List Nat) (V : List (List Nat))
    (o : Option (List Nat)) (sc : WithBot ℚ) :
    bestFold cfg (v :: V) (o, sc) =
      bestFold cfg V
        (if is_complete v && decide (sc < ((score cfg v : ℚ) : WithBot ℚ)) then
          (some v, ((score cfg v : ℚ) : WithBot ℚ))
        else (o, sc)) := by
  rw [bestFold, bestFold, List.foldl_cons]

theorem optimizeLoop_fst (cfg : OptSeq) (fuel : Nat) :
    ∀ (iter : Nat) (s : List Nat) (o : Option (List Nat)) (sc : WithBot ℚ),
    (optimizeLoop cfg fuel iter s o sc).1 =
      (bestFold cfg (visited cfg fuel iter s) (o, sc)).1 := by
  intro iter
  induction iter with
  | zero =>
    intro s o sc
    rfl
  | succ iter ih =>
    intro s o sc
    simp only [optimizeLoop, visited]
    by_cases hb : (next_valid_sequence cfg fuel s).1 = true
    · rw [if_pos hb, if_pos hb, bestFold_cons]
      by_cases hcond : (is_complete (next_valid_sequence cfg fuel s).2 &&
          decide (sc < ((score cfg (next_valid_sequence cfg fuel s).2 : ℚ) :
            WithBot ℚ))) = true
      · rw [if_pos hcond, if_pos hcond]
        exact ih _ _ _
      · rw [if_neg hcond, if_neg hcond]
        exact ih _ _ _
    · rw [if_neg hb, if_neg hb]
      rfl

theorem foldl_filter_skip {α β : Type} (f : β → α → β) (p : α → Bool)
    (hskip : ∀ acc v, p v = false → f acc v = acc) :
    ∀ (L : List α) (acc : β), L.foldl f acc = (L.filter p).foldl f acc := by
  intro L
  induction L with
  | nil =>
    intro acc
    rfl
  | cons v L' ih =>
    intro acc
    rw [List.foldl_cons]
    cases hp : p v with
    | true => rw [List.filter_cons_of_pos hp, List.foldl_cons, ih]
    | false => rw [List.filter_cons_of_neg (by simp [hp]), hskip acc v hp, ih]

theorem bestFold_filter (cfg : OptSeq) (V : List (List Nat))
    (acc : Option (List Nat) × WithBot ℚ) :
    bestFold cfg V acc = bestFold cfg (V.filter is_complete) acc := by
  rw [bestFold, bestFold]
  exact foldl_filter_skip _ is_complete
    (fun acc v hv => by rw [if_neg (by simp [hv])]) V acc

theorem bestFold_run (cfg : OptSeq) :
    ∀ (D : List (List Nat)) (t : List Nat),
    (∀ v ∈ D, is_complete v = true) →
    ∃ t', bestFold cfg D (some t, ((score cfg t : ℚ) : WithBot ℚ)) =
        (some t', ((score cfg t' : ℚ) : WithBot ℚ)) ∧
      ∃ D₁ D₂, t :: D = D₁ ++ t' :: D₂ ∧
        (∀ v ∈ D₁, score cfg v < score cfg t') ∧
        (∀ v ∈ D₂, score cfg v ≤ score cfg t') := by
  intro D
  induction D with
  | nil =>
    intro t _
    exact ⟨t, rfl, [], [], rfl, by simp, by simp⟩
  | cons v D' ih =>
    intro t hD
    have hv : is_complete v = true := hD v (List.mem_cons_self v D')
    rw [bestFold_cons]
    by_cases hlt : score cfg t < score cfg v
    · rw [if_pos (by rw [hv, Bool.true_and]; exact decide_eq_true (WithBot.coe_lt_coe.mpr hlt))]
      obtain ⟨t', heq, D₁, D₂, hsplit, hD₁, hD₂⟩ :=
        ih v (fun u hu => hD u (List.mem_cons_of_mem v hu))
      refine ⟨t', heq, t :: D₁, D₂, by rw [List.cons_append, ← hsplit], ?_, hD₂⟩
      intro u hu
      rcases List.mem_cons.mp hu with rfl | hu'
      · cases D₁ with
        | nil =>
          rw [List.nil_append] at hsplit
          have hveq := (List.cons.inj hsplit).1
          rw [← hveq]
          exact hlt
        | cons d D₁' =>
          rw [List.cons_append] at hsplit
          obtain ⟨rfl, _⟩ := List.cons.inj hsplit
          exact lt_trans hlt (hD₁ v (List.mem_cons_self v D₁'))
      · exact hD₁ u hu'
    · rw [if_neg (by rw [hv, Bool.true_and, decide_eq_true_eq]; intro hcon; exact hlt (WithBot.coe_lt_coe.mp hcon))]
      obtain ⟨t', heq, D₁, D₂, hsplit, hD₁, hD₂⟩ :=
        ih t (fun u hu => hD u (List.mem_cons_of_mem v hu))
      cases D₁ with
      | nil =>
        rw [List.nil_append] at hsplit
        obtain ⟨rfl, rfl⟩ := List.cons.inj hsplit
        refine ⟨t, heq, [], v :: D', by rw [List.nil_append], by simp, ?_⟩
        intro u hu
        rcases List.mem_cons.mp hu with rfl | hu'
        · exact le_of_not_lt hlt
        · exact hD₂ u hu'
      | cons d D₁' =>
        rw [List.cons_append] at hsplit
        obtain ⟨rfl, hD'eq⟩ := List.cons.inj hsplit
        refine ⟨t', heq, t :: v :: D₁', D₂, ?_, ?_, hD₂⟩
        · rw [List.cons_append, List.cons_append, ← hD'eq]
        · intro u hu
          have hdlt : score cfg t < score cfg t' :=
            hD₁ t (List.mem_cons_self t D₁')
          rcases List.mem_cons.mp hu with rfl | hu'
          · exact hdlt
          · rcases List.mem_cons.mp hu' with rfl | hu''
            · exact lt_of_le_of_lt (le_of_not_lt hlt) hdlt
            · exact hD₁ u (List.mem_cons_of_mem t hu'')

theorem bestFold_char (cfg : OptSeq) (V : List (List Nat)) :
    (V.filter is_complete = [] → bestFold cfg V (none, ⊥) = (none, ⊥)) ∧
    (∀ d D', V.filter is_complete = d :: D' →
      ∃ t', bestFold cfg V (none, ⊥) =
          (some t', ((score cfg t' : ℚ) : WithBot ℚ)) ∧
        t' ∈ V.filter is_complete ∧
        (∀ v ∈ V.filter is_complete, score cfg v ≤ score cfg t') ∧
        ∃ C₁ C₂, V.filter is_complete = C₁ ++ t' :: C₂ ∧
          (∀ v ∈ C₁, score cfg v < score cfg t') ∧
          (∀ v ∈ C₂, score cfg v ≤ score cfg t')) := by
  constructor
  · intro hD
    rw [bestFold_filter, hD]
    rfl
  · intro d D' hD
    rw [bestFold_filter, hD, bestFold_cons]
    have hdmem : d ∈ V.filter is_complete := by
      rw [hD]
      exact List.mem_cons_self d D'
    have hd : is_complete d = true := (List.mem_filter.mp hdmem).2
    rw [if_pos (by rw [hd, Bool.true_and]; exact decide_eq_true (WithBot.bot_lt_coe _))]
    have hD'c : ∀ v ∈ D', is_complete v = true := by
      intro v hvm
      have h2 : v ∈ V.filter is_complete := by
        rw [hD]
        exact List.mem_cons_of_mem d hvm
      exact (List.mem_filter.mp h2).2
    obtain ⟨t', heq, D₁, D₂, hsplit, hD₁, hD₂⟩ := bestFold_run cfg D' d hD'c
    refine ⟨t', heq, ?_, ?_, D₁, D₂, hsplit, hD₁, hD₂⟩
    · rw [hsplit]
      exact List.mem_append.mpr (Or.inr (List.mem_cons_self t' D₂))
    · intro v hvm
      rw [hsplit] at hvm
      rcases List.mem_append.mp hvm with hv' | hv'
      · exact le_of_lt (hD₁ v hv')
      · rcases List.mem_cons.mp hv' with rfl | hv''
        · exact le_refl _
        · exact hD₂ v hv''

/-- **C8**: `optimize` returns `true` exactly when the enumeration reaches
a complete valid sequence; on success the returned sequence is a visited
complete valid sequence of maximal score, and it is the first visited
attainer of that score — every earlier complete visit scores strictly
lower, every later one at most equal (the best is replaced only by
strictly better complete sequences); on failure no layout is retained. -/
theorem optimize_correct (cfg : OptSeq) (fuel iter : Nat) (s : List Nat) :
    ((optimize cfg fuel iter s).1 = true ↔
      (visited cfg fuel iter s).filter is_complete ≠ []) ∧
    (∀ t, optimize cfg fuel iter s = (true, t) →
      t ∈ (visited cfg fuel iter s).filter is_complete ∧
      is_valid cfg t = true ∧ is_complete t = true ∧
      (∀ v ∈ (visited cfg fuel iter s).filter is_complete,
        score cfg v ≤ score cfg t) ∧
      ∃ C₁ C₂, (visited cfg fuel iter s).filter is_complete =
          C₁ ++ t :: C₂ ∧
        (∀ v ∈ C₁, score cfg v < score cfg t) ∧
        (∀ v ∈ C₂, score cfg v ≤ score cfg t)) := by
  cases hC : (visited cfg fuel iter s).filter is_complete with
  | nil =>
    have hnone : (optimizeLoop cfg fuel iter s none ⊥).1 = none := by
      rw [optimizeLoop_fst, (bestFold_char cfg (visited cfg fuel iter s)).1 hC]
    have hopt1 : (optimize cfg fuel iter s).1 = false := by
      simp only [optimize]
      cases hr : optimizeLoop cfg fuel iter s none ⊥ with
      | mk o fin =>
        rw [hr] at hnone
        simp only at hnone
        subst hnone
        rfl
    refine ⟨by rw [hopt1]; simp, ?_⟩
    intro t ht
    rw [ht] at hopt1
    simp at hopt1
  | cons d D' =>
    obtain ⟨t', heq, htmem, hmax, C₁, C₂, hsplit, hC₁, hC₂⟩ :=
      (bestFold_char cfg (visited cfg fuel iter s)).2 d D' hC
    have hbest : (optimizeLoop cfg fuel iter s none ⊥).1 = some t' := by
      rw [optimizeLoop_fst, heq]
    have htne : t' ≠ [] := by
      intro h0
      rw [h0] at htmem
      exact nil_not_mem_visited cfg fuel iter s (List.mem_filter.mp htmem).1
    have hval : is_valid cfg t' = true :=
      mem_visited_valid cfg fuel iter s t' (List.mem_filter.mp htmem).1
    have hcomp : is_complete t' = true := (List.mem_filter.mp htmem).2
    have hopt : optimize cfg fuel iter s = (true, t') := by
      simp only [optimize]
      cases hr : optimizeLoop cfg fuel iter s none ⊥ with
      | mk o fin =>
        rw [hr] at hbest
        simp only at hbest
        subst hbest
        show (if t' = [] then (false, fin) else (true, t')) = (true, t')
        rw [if_neg htne]
    refine ⟨?_, ?_⟩
    · rw [hopt]
      simp
    · intro t ht
      rw [hopt] at ht
      obtain rfl : t' = t := (Prod.mk.inj ht).2
      rw [hC] at htmem hmax hsplit
      exact ⟨htmem, hval, hcomp, hmax, C₁, C₂, hsplit, hC₁, hC₂⟩

theorem optimize_correct_witness :
    [2, 1] ∈ (visited cfgFree 13 13 (initSeq cfgFree)).filter is_complete ∧
    is_valid cfgFree [2, 1] = true ∧ is_complete [2, 1] = true ∧
    (∀ v ∈ (visited cfgFree 13 13 (initSeq cfgFree)).filter is_complete,
      score cfgFree v ≤ score cfgFree [2, 1]) ∧
    ∃ C₁ C₂, (visited cfgFree 13 13 (initSeq cfgFree)).filter is_complete =
        C₁ ++ [2, 1] :: C₂ ∧
      (∀ v ∈ C₁, score cfgFree v < score cfgFree [2, 1]) ∧
      (∀ v ∈ C₂, score cfgFree v ≤ score cfgFree [2, 1]) :=
  (optimize_correct cfgFree 13 13 (initSeq cfgFree)).2 [2, 1] (by decide)

end NCD
